import Mathlib

/-!
Verification development for the performance-trace processing engine
(string interner, format upgrade pipeline, call-node reducer, inversion
engine, symbolication merger, counter normalizer, filter strings).

Components whose implementation files are not part of the checked-out
sources (only their unit tests, Flow type declarations and the format
changelog are) are modelled from the specification; each such definition
carries a doc comment starting with "Modelled from the spec:".  The filter
string module is present in the sources and is embedded directly.
-/

namespace Engine

/-! ## Counter Normalizer (spec 4.5; changelog "Version 52") -/

/-- Running total of a list of counter deltas, starting from accumulator `acc`:
each output element is the sum of `acc` and all input elements up to and
including that position. -/
def cumulativeSums (acc : Int) : List Int → List Int
  | [] => []
  | c :: cs => (acc + c) :: cumulativeSums (acc + c) cs

/-- Modelled from the spec: the Counter Normalizer (spec section 4.5, changelog
"Version 52"; implementation file absent from the sources).  Given counter
samples carrying either absolute values, or deltas when the `relative` flag is
set, it produces an absolute sequence: cumulative summation when `relative` is
set, identity otherwise. -/
def normalizeCounterSamples (relative : Bool) (counts : List Int) : List Int :=
  if relative then cumulativeSums 0 counts else counts

/-! ## String Interner (UniqueStringArray; tests lines 49-70) -/

/-- Index of the first occurrence of `s` in a list of strings, if present. -/
def lookupIndex (s : String) : List String → Option Nat
  | [] => none
  | t :: ts => if t = s then some 0 else (lookupIndex s ts).map (· + 1)

/-- Modelled from the spec: the String Interner `UniqueStringArray`
(implementation file `utils/unique-string-array.js` absent from the sources;
behavior pinned by its unit tests).  An ordered sequence of unique strings
with bidirectional lookup. -/
structure UniqueStringArray where
  strings : List String
deriving Repr, DecidableEq

/-- `getString`: index-to-string lookup. -/
def UniqueStringArray.getString (u : UniqueStringArray) (i : Nat) : Option String :=
  u.strings.get? i

/-- Modelled from the spec: `indexForString` returns the existing index for a
string already in the table, and otherwise appends the string and returns the
fresh index (the previous table length).  Returns the index together with the
updated table state. -/
def UniqueStringArray.indexForString (u : UniqueStringArray) (s : String) :
    Nat × UniqueStringArray :=
  match lookupIndex s u.strings with
  | some i => (i, u)
  | none => (u.strings.length, ⟨u.strings ++ [s]⟩)

/-! ## Format Upgrade Pipeline (spec 4.1; tests lines 564-695) -/

/-- A versioned document: an explicit integer version field gating which
upgrade steps apply, plus the payload shape at that version. -/
structure VersionedDoc (α : Type) where
  version : Nat
  payload : α
deriving Repr, DecidableEq

/-- Apply `n` successive upgrade steps: each iteration applies the step for
the document's declared version and rewrites the version to the next one. -/
def upgradeLoop (steps : Nat → α → α) : Nat → VersionedDoc α → VersionedDoc α
  | 0, d => d
  | n + 1, d => upgradeLoop steps n ⟨d.version + 1, steps d.version d.payload⟩

/-- Modelled from the spec: the Format Upgrade Pipeline (spec section 4.1;
upgrader files `processed-profile-versioning.js` / `gecko-profile-versioning.js`
absent from the sources).  Given a table of upgrade steps indexed by version
and a target current-version constant, it applies `steps v` sequentially,
rewriting the version after each step, until the document's version equals
`current`; a document whose version exceeds `current` fails with
`FutureVersion`. -/
def runUpgradePipeline (steps : Nat → α → α) (current : Nat) (d : VersionedDoc α) :
    Except String (VersionedDoc α) :=
  if current < d.version then .error "FutureVersion"
  else .ok (upgradeLoop steps (current - d.version) d)

/-! ## Legacy pre-versioning format (spec 4.1 special case; tests lines 564-583) -/

/-- An untyped input document as seen by the format detectors: an optional
integer version field, a flag recording whether the characteristic legacy
(old-cleopatra) keys are present, a flag recording whether the structural
markers of the normalized-analysis ("processed") format are present, and the
payload. -/
structure InputDoc (α : Type) where
  version : Option Nat
  legacyKeys : Bool
  processedMarkers : Bool
  payload : α
deriving Repr, DecidableEq

/-- Modelled from the spec: `isOldCleopatraFormat` detects the structurally
distinct legacy pre-versioning format by a heuristic discriminant: absence of
a version field plus presence of the characteristic legacy keys. -/
def isOldCleopatraFormat (d : InputDoc α) : Bool :=
  d.version.isNone && d.legacyKeys

/-- Modelled from the spec: `isProcessedProfile` recognizes the
normalized-analysis format by its structural markers and its version field. -/
def isProcessedProfile (d : InputDoc α) : Bool :=
  d.version.isSome && d.processedMarkers

/-- The oldest-numbered version of the normalized-analysis document chain,
which the legacy adapter targets. -/
def oldestProcessedVersion : Nat := 0

/-- Modelled from the spec: `convertOldCleopatraProfile`, the single dedicated
adapter converting a legacy pre-versioning document into the oldest-numbered
normalized-analysis document, on which the standard upgrade chain then runs. -/
def convertOldCleopatraProfile (conv : α → β) (d : InputDoc α) : InputDoc β :=
  ⟨some oldestProcessedVersion, false, true, conv d.payload⟩

/-- View a recognized normalized-analysis input document as a versioned
document for the upgrade chain (version field read off, defaulting to the
oldest version when absent, which cannot happen for recognized documents). -/
def toVersionedDoc (d : InputDoc α) : VersionedDoc α :=
  ⟨d.version.getD oldestProcessedVersion, d.payload⟩

/-! ## Filter strings (`stringFromFilter` / `filterFromString`, embedded from
the filter module in the sources).

JS numbers are modelled as `Option Int` (`none` is `NaN`, produced by unary
plus on a missing or non-integer argument); the JS `undefined` value that can
be pushed into `paths` is modelled as `none`. -/

/-- A filter description: an optional implementation restriction plus
substring and path filters.  `implementation` starts out `null` when built by
the parser; `paths` entries may be the JS `undefined` when the `path:` verb
has no argument. -/
structure FilterDescription where
  implementation : Option String
  substrings : List String
  paths : List (Option String)
deriving Repr, DecidableEq

/-- A stack charge directive, `charge:source:target`. -/
structure ChargeDescription where
  source : Nat
  target : Nat
deriving Repr, DecidableEq

/-- The display part of a filter. `hide` entries are JS numbers
(`none` = NaN). -/
structure DisplayDescription where
  invertCallstack : Bool
  hidePlatformDetails : Bool
  hide : List (Option Int)
  charge : List ChargeDescription
deriving Repr, DecidableEq

/-- A user filter.  The source's `include` / `exclude` fields are named
`includeDesc` / `excludeDesc` here because `include` is a Lean keyword. -/
structure Filter where
  includeDesc : Option FilterDescription
  excludeDesc : Option FilterDescription
  display : DisplayDescription
  cachedString : String
deriving Repr, DecidableEq

/-- `getEmptyUserFilter` from the source. -/
def getEmptyUserFilter : Filter :=
  ⟨none, none, ⟨false, false, [], []⟩, ""⟩

/-- JS `\w` (ASCII word character). -/
def isWordChar (c : Char) : Bool :=
  c.isAlphanum || c == '_'

/-- One match of the filter token regex: an optional `-`/`+` modifier, a
word-character verb, and an optional `:`-introduced non-space argument. -/
structure FilterToken where
  modifier : Option Char
  verb : String
  argument : Option String
deriving Repr, DecidableEq

/-- After the verb, the regex's optional group `(?::(\S+))?`: when a `:`
immediately follows and is itself followed by a non-space character, the
argument is the maximal run of non-space characters; otherwise there is no
argument and scanning resumes at the `:` (if any). -/
def lexAfterVerb : List Char → Option String × List Char
  | ':' :: c :: cs =>
    if !c.isWhitespace then
      (some (String.mk ((c :: cs).takeWhile (fun x => !x.isWhitespace))),
        (c :: cs).dropWhile (fun x => !x.isWhitespace))
    else (none, ':' :: c :: cs)
  | cs => (none, cs)

/-- The last character consumed by a token match (verb or argument),
used as the word-boundary context for the next match. -/
def lastConsumed (w : List Char) (arg : Option String) : Option Char :=
  match arg with
  | some a => a.data.getLast?
  | none => w.getLast?

/-- Repeated-`exec` loop of the global token regex
`/([-+])?\b(\w+)(?::(\S+))?/g` over the input, with `prev` the character
before the current position (for the `\b` word-boundary test).  `fuel`
bounds the recursion; `input length + 1` always suffices since every
iteration consumes at least one character. -/
def lexFilterGo : Nat → Option Char → List Char → List FilterToken
  | 0, _, _ => []
  | _ + 1, _, [] => []
  | fuel + 1, prev, c :: cs =>
    if (c == '-' || c == '+')
        && (match cs with | c2 :: _ => isWordChar c2 | [] => false) then
      let w := cs.takeWhile isWordChar
      let r1 := cs.dropWhile isWordChar
      let (arg, r2) := lexAfterVerb r1
      ⟨some c, String.mk w, arg⟩ :: lexFilterGo fuel (lastConsumed w arg) r2
    else if isWordChar c
        && !(match prev with | some p => isWordChar p | none => false) then
      let w := (c :: cs).takeWhile isWordChar
      let r1 := (c :: cs).dropWhile isWordChar
      let (arg, r2) := lexAfterVerb r1
      ⟨none, String.mk w, arg⟩ :: lexFilterGo fuel (lastConsumed w arg) r2
    else
      lexFilterGo fuel (some c) cs

/-- All matches of the filter token regex in a string, in order. -/
def lexFilter (s : String) : List FilterToken :=
  lexFilterGo (s.data.length + 1) none s.data

/-- Numeric value of a list of decimal digits. -/
def natOfDigits (cs : List Char) : Nat :=
  cs.foldl (fun n c => n * 10 + (c.toNat - '0'.toNat)) 0

/-- A nonempty all-digit character list, as a number. -/
def digitsOnly (cs : List Char) : Option Nat :=
  if cs ≠ [] ∧ cs.all Char.isDigit then some (natOfDigits cs) else none

/-- JS unary plus on an optional string, restricted to integers:
`none` (undefined) and non-integer strings give NaN (`none`). -/
def jsToNumber : Option String → Option Int
  | none => none
  | some s =>
    match s.data with
    | '-' :: rest => (digitsOnly rest).map (fun n => -(n : Int))
    | '+' :: rest => (digitsOnly rest).map (fun n => (n : Int))
    | ds => (digitsOnly ds).map (fun n => (n : Int))

/-- The charge-argument regex `/^(\d+):(\d+)$/`. -/
def parseChargeArgument (s : String) : Option (Nat × Nat) :=
  let d1 := s.data.takeWhile Char.isDigit
  let r1 := s.data.dropWhile Char.isDigit
  match d1, r1 with
  | [], _ => none
  | _, ':' :: r2 =>
    let d2 := r2.takeWhile Char.isDigit
    let r3 := r2.dropWhile Char.isDigit
    if d2 ≠ [] ∧ r3 = [] then some (natOfDigits d1, natOfDigits d2) else none
  | _, _ => none

/-- The source's parsed `FilterDescription` initializer:
`filter[operation] = filter[operation] || (implementation: null, paths: [],
substrings: [])`. -/
def emptyParsedDescription : FilterDescription :=
  ⟨none, [], []⟩

/-- Update the include or exclude description of a filter, creating the empty
parsed description first when it is still `null` (the source's
`filterDescription()` closure). -/
def updateDescription (isExclude : Bool) (upd : FilterDescription → FilterDescription)
    (f : Filter) : Filter :=
  if isExclude then
    match f.excludeDesc with
    | some d => { f with excludeDesc := some (upd d) }
    | none => { f with excludeDesc := some (upd emptyParsedDescription) }
  else
    match f.includeDesc with
    | some d => { f with includeDesc := some (upd d) }
    | none => { f with includeDesc := some (upd emptyParsedDescription) }

/-- One iteration of `filterFromString`'s `while` loop: dispatch on the
lower-cased verb. -/
def applyFilterToken (f : Filter) (t : FilterToken) : Filter :=
  let isExclude := t.modifier == some '-'
  match t.verb.toLower with
  | "invertcallstack" =>
    { f with display := { f.display with invertCallstack := true } }
  | "hideplatformdetails" =>
    { f with display := { f.display with hidePlatformDetails := true } }
  | "hide" =>
    { f with display := { f.display with hide := f.display.hide ++ [jsToNumber t.argument] } }
  | "charge" =>
    match t.argument with
    | some a =>
      match parseChargeArgument a with
      | some (src, tgt) =>
        { f with display :=
            { f.display with charge := f.display.charge ++ [⟨src, tgt⟩] } }
      | none => f
    | none => f
  | "implementation" =>
    if t.argument == some "js" || t.argument == some "cpp" then
      updateDescription isExclude (fun d => { d with implementation := t.argument }) f
    else f
  | "path" =>
    updateDescription isExclude (fun d => { d with paths := d.paths ++ [t.argument] }) f
  | _ =>
    let s := match t.argument with
      | some a => a
      | none => t.verb
    updateDescription isExclude (fun d => { d with substrings := d.substrings ++ [s] }) f

/-- `filterFromString` from the source: start from the empty filter with the
input stored as `cachedString`, then process every token match in order. -/
def filterFromString (s : String) : Filter :=
  (lexFilter s).foldl applyFilterToken
    ⟨none, none, ⟨false, false, [], []⟩, s⟩

/-- Rendering of a JS number (template string), `NaN` included. -/
def jsNumberToString : Option Int → String
  | none => "NaN"
  | some n => toString n

/-- Rendering of a possibly-`undefined` JS string (template string). -/
def jsOptStringToString : Option String → String
  | none => "undefined"
  | some s => s

/-- `_fromFilterDescription` from the source: the `implementation:` item when
the implementation field is truthy, then the `path:` items, then the
`substring:` items. -/
def _fromFilterDescription (d : FilterDescription) : List String :=
  (match d.implementation with
   | some impl => if impl = "" then [] else ["implementation:" ++ impl]
   | none => [])
  ++ d.paths.map (fun p => "path:" ++ jsOptStringToString p)
  ++ d.substrings.map (fun s => "substring:" ++ s)

/-- `stringFromFilter` from the source: the empty string for a null filter;
the cached string whenever re-parsing it yields an equal filter; otherwise
the include items, the `-`-prefixed exclude items and the display items,
joined by single spaces. -/
def stringFromFilter : Option Filter → String
  | none => ""
  | some filter =>
    if filter = filterFromString filter.cachedString then filter.cachedString
    else
      let includeItems := match filter.includeDesc with
        | some d => _fromFilterDescription d
        | none => []
      let excludeItems := match filter.excludeDesc with
        | some d => (_fromFilterDescription d).map (fun item => "-" ++ item)
        | none => []
      let displayItems :=
        (if filter.display.invertCallstack then ["invertCallstack"] else [])
        ++ (if filter.display.hidePlatformDetails then ["hidePlatformDetails"] else [])
        ++ filter.display.hide.map (fun n => "hide:" ++ jsNumberToString n)
        ++ filter.display.charge.map
            (fun c => "charge:" ++ toString c.source ++ ":" ++ toString c.target)
      String.intercalate " " (includeItems ++ excludeItems ++ displayItems)

/-! ## Call-Node Reducer (spec 4.2; CallNodeTable doc in the sources;
tests lines 273-388) and Inversion Engine (spec 4.3). -/

/-- A call node in the intermediate (pre-finalization) call tree: a function
index and the list of child subtrees, in first-insertion order. -/
inductive CallTree where
  | node (func : Nat) (children : List CallTree)
deriving Repr

/-- The function of a call tree node. -/
def CallTree.func : CallTree → Nat
  | .node f _ => f

/-- The children of a call tree node. -/
def CallTree.children : CallTree → List CallTree
  | .node _ cs => cs

mutual

/-- Number of nodes in a call subtree. -/
def CallTree.size : CallTree → Nat
  | .node _ cs => 1 + sizeForest cs

/-- Number of nodes in a forest of call subtrees. -/
def sizeForest : List CallTree → Nat
  | [] => 0
  | t :: ts => t.size + sizeForest ts

end

/-- Split a forest at the first tree whose root function is `f`: the trees
before it (none of which has root function `f`), the tree itself, and the
trees after it. -/
def splitAtFunc (f : Nat) : List CallTree →
    Option (List CallTree × CallTree × List CallTree)
  | [] => none
  | t :: ts =>
    if t.func = f then some ([], t, ts)
    else (splitAtFunc f ts).map (fun bta => (t :: bta.1, bta.2.1, bta.2.2))

/-- Modelled from the spec: one chain insertion of the Call-Node Reducer
(spec section 4.2; `profile-data.js` is absent from the sources).  Walk the
function chain from root to leaf; at each level, if a child with the same
func already exists under the current parent, reuse it, otherwise create a
new child (appended after its siblings). -/
def insertPath : List Nat → List CallTree → List CallTree
  | [], ts => ts
  | f :: fs, ts =>
    match splitAtFunc f ts with
    | some (b, t, a) => b ++ CallTree.node f (insertPath fs t.children) :: a
    | none => ts ++ [CallTree.node f (insertPath fs [])]

/-- The stack table columns the reducer reads: each row is a frame reference
plus a prefix link (the parent stack row, or none for roots; the source
column is called `prefix`). -/
structure StackTable where
  frame : List Nat
  prefixIdx : List (Option Nat)
deriving Repr, DecidableEq

/-- The frame table column the reducer reads: each frame row references a
func row. -/
structure FrameTable where
  func : List Nat
deriving Repr, DecidableEq

/-- Function chain from the root to stack `s`, following the prefix links;
`fuel` bounds the walk (in a well-formed stack table every prefix link
points to a strictly smaller row, so `s + 1` suffices). -/
def stackFuncPathGo (st : StackTable) (ft : FrameTable) : Nat → Nat → List Nat
  | 0, _ => []
  | fuel + 1, s =>
    let fn := ft.func.getD (st.frame.getD s 0) 0
    match st.prefixIdx.getD s none with
    | none => [fn]
    | some p => stackFuncPathGo st ft fuel p ++ [fn]

/-- Function chain from the root to stack `s`. -/
def stackFuncPath (st : StackTable) (ft : FrameTable) (s : Nat) : List Nat :=
  stackFuncPathGo st ft (s + 1) s

/-- Modelled from the spec: the Call-Node Reducer's deduplicated forest for a
thread — every stack row's function chain is inserted in row order (the
non-inverted reducer materializes a call node for every stack row). -/
def buildCallNodeForest (st : StackTable) (ft : FrameTable) : List CallTree :=
  (List.range st.frame.length).foldl
    (fun ts s => insertPath (stackFuncPath st ft s) ts) []

/-- One row of the finalized CallNodeTable (columns as in the sources'
`CallNodeTable` type): func, prefix (parent index or -1), nextSibling
(next sibling index or -1), and subtreeRangeEnd. -/
structure CNRow where
  func : Nat
  prefixIdx : Int
  nextSibling : Int
  subtreeRangeEnd : Nat
deriving Repr, DecidableEq

mutual

/-- Finalization rows of one subtree: the root row (at absolute index `i`,
with the given parent and next-sibling indices), followed by the rows of its
children forest. -/
def flattenTree (parent nextSib : Int) (i : Nat) : CallTree → List CNRow
  | .node f cs =>
    ⟨f, parent, nextSib, i + 1 + sizeForest cs⟩
      :: flattenForest (i : Int) (i + 1) cs

/-- Finalization rows of a forest of sibling subtrees starting at absolute
index `i`: depth-first pre-order, each root's next sibling being the start of
the following subtree (-1 for the last sibling). -/
def flattenForest (parent : Int) (i : Nat) : List CallTree → List CNRow
  | [] => []
  | t :: ts =>
    flattenTree parent (if ts.isEmpty then -1 else ((i + t.size : Nat) : Int)) i t
      ++ flattenForest parent (i + t.size) ts

end

/-- The finalized CallNodeTable of a forest: depth-first pre-order rows
starting at index 0, roots having parent -1. -/
def callNodeTableOfForest (ts : List CallTree) : List CNRow :=
  flattenForest (-1) 0 ts

/-- Modelled from the spec: the CallNodeTable produced by the engine
(`getCallNodeInfo`) for a thread — the deduplicated forest, finalized in
depth-first pre-order. -/
def callNodeTable (st : StackTable) (ft : FrameTable) : List CNRow :=
  callNodeTableOfForest (buildCallNodeForest st ft)

/-- Depth-first index of the node reached by following `path` through a
forest whose first row has absolute index `base`, if the path exists. -/
def lookupPathIdx : List Nat → Nat → List CallTree → Option Nat
  | [], _, _ => none
  | f :: fs, base, ts =>
    match splitAtFunc f ts with
    | none => none
    | some (b, t, _) =>
      match fs with
      | [] => some (base + sizeForest b)
      | _ :: _ => lookupPathIdx fs (base + sizeForest b + 1) t.children

/-- Modelled from the spec: the stack-index → call-node-index map of the
non-inverted tree — each stack maps to the call node reached by its function
chain (-1 if absent, which never happens for the non-inverted map). -/
def stackIndexToCallNodeIndex (st : StackTable) (ft : FrameTable) (s : Nat) : Int :=
  match lookupPathIdx (stackFuncPath st ft s) 0 (buildCallNodeForest st ft) with
  | some i => (i : Int)
  | none => -1

/-- Modelled from the spec: the Inversion Engine's forest (spec section 4.3)
— only the stacks referenced as "self" stacks are inserted, and each is
inserted with its function chain reversed (leaf first). -/
def buildInvertedForest (st : StackTable) (ft : FrameTable)
    (selfStacks : List Nat) : List CallTree :=
  selfStacks.foldl
    (fun ts s => insertPath (stackFuncPath st ft s).reverse ts) []

/-- The finalized inverted CallNodeTable. -/
def invertedCallNodeTable (st : StackTable) (ft : FrameTable)
    (selfStacks : List Nat) : List CNRow :=
  callNodeTableOfForest (buildInvertedForest st ft selfStacks)

/-- Modelled from the spec: the stack-index → inverted-call-node-index map —
-1 for every stack not referenced as a self stack; a self stack maps to the
inverted node reached by its reversed function chain. -/
def invertedStackIndexToCallNodeIndex (st : StackTable) (ft : FrameTable)
    (selfStacks : List Nat) (s : Nat) : Int :=
  if s ∈ selfStacks then
    match lookupPathIdx (stackFuncPath st ft s).reverse 0
        (buildInvertedForest st ft selfStacks) with
    | some i => (i : Int)
    | none => -1
  else -1

/-- Function path from its root to row `k` of a call node table, read off
the table's prefix links (`getCallNodePath`); fuel-bounded (prefix indices
strictly decrease, so `k + 1` suffices). -/
def getCallNodePathGo (rows : List CNRow) : Nat → Nat → List Nat
  | 0, _ => []
  | fuel + 1, k =>
    match rows.get? k with
    | none => []
    | some r =>
      if r.prefixIdx < 0 then [r.func]
      else getCallNodePathGo rows fuel r.prefixIdx.toNat ++ [r.func]

/-- Function path from its root to row `k` of a call node table. -/
def getCallNodePath (rows : List CNRow) (k : Nat) : List Nat :=
  getCallNodePathGo rows (k + 1) k

/-- The strict ancestors of row `k` (its prefix chain), nearest first;
fuel-bounded. -/
def ancestorsGo (rows : List CNRow) : Nat → Nat → List Nat
  | 0, _ => []
  | fuel + 1, k =>
    match rows.get? k with
    | none => []
    | some r =>
      if r.prefixIdx < 0 then []
      else r.prefixIdx.toNat :: ancestorsGo rows fuel r.prefixIdx.toNat

/-- The strict ancestors of row `k` (its prefix chain), nearest first. -/
def ancestors (rows : List CNRow) (k : Nat) : List Nat :=
  ancestorsGo rows (k + 1) k

mutual

/-- The node at depth-first index `k` of a forest. -/
def forestNodeAt : List CallTree → Nat → Option CallTree
  | [], _ => none
  | t :: ts, k => if k < t.size then treeNodeAt t k else forestNodeAt ts (k - t.size)

/-- The node at depth-first index `k` within one subtree. -/
def treeNodeAt : CallTree → Nat → Option CallTree
  | t, 0 => some t
  | .node _ cs, k + 1 => forestNodeAt cs k

end

mutual

/-- The depth-first index of the parent of the node at index `k` of a forest
(none for the forest's roots). -/
def forestParentOf : List CallTree → Nat → Option Nat
  | [], _ => none
  | t :: ts, k =>
    if k < t.size then treeParentOf t k
    else (forestParentOf ts (k - t.size)).map (· + t.size)

/-- The depth-first index of the parent of the node at index `k` within one
subtree (none for the subtree's root). -/
def treeParentOf : CallTree → Nat → Option Nat
  | _, 0 => none
  | .node _ cs, k + 1 =>
    match forestParentOf cs k with
    | some q => some (q + 1)
    | none => some 0

end

mutual

/-- The depth-first index of the next sibling of the node at index `k` of a
forest (none if it is the last among its siblings). -/
def forestNextSibOf : List CallTree → Nat → Option Nat
  | [], _ => none
  | t :: ts, k =>
    if k < t.size then
      match treeNextSibOf t k with
      | some q => some q
      | none => if k = 0 then (if ts.isEmpty then none else some t.size) else none
    else (forestNextSibOf ts (k - t.size)).map (· + t.size)

/-- The depth-first index of the next sibling of the node at index `k`
within one subtree (none for the subtree's root, whose siblings are outside
the subtree, and for last children). -/
def treeNextSibOf : CallTree → Nat → Option Nat
  | _, 0 => none
  | .node _ cs, k + 1 => (forestNextSibOf cs k).map (· + 1)

end

mutual

/-- The function path from the root to the node at depth-first index `k` of
a forest. -/
def forestPathTo : List CallTree → Nat → List Nat
  | [], _ => []
  | t :: ts, k => if k < t.size then treePathTo t k else forestPathTo ts (k - t.size)

/-- The function path from the subtree's root to the node at depth-first
index `k` within the subtree. -/
def treePathTo : CallTree → Nat → List Nat
  | .node f _, 0 => [f]
  | .node f cs, k + 1 => f :: forestPathTo cs k

end

/-- Rendering of an optional parent index as the table's prefix column:
the enclosing context's parent value for forest roots, otherwise the
absolute index. -/
def renderParent (parent : Int) (i : Nat) : Option Nat → Int
  | none => parent
  | some q => ((i + q : Nat) : Int)

/-- Rendering of an optional sibling index as the table's nextSibling
column: -1 when absent, otherwise the absolute index. -/
def renderSib (i : Nat) : Option Nat → Int
  | none => -1
  | some q => ((i + q : Nat) : Int)

/-- The value of the subtreeRangeEnd column when a node has no next sibling:
the subtree end of the closest ancestor that has a next sibling, or the
table length when no ancestor has one; fuel-bounded walk up the prefix
links. -/
def closestAncestorEnd (rows : List CNRow) : Nat → Nat → Nat
  | 0, _ => rows.length
  | fuel + 1, k =>
    match rows.get? k with
    | none => rows.length
    | some r =>
      if 0 ≤ r.nextSibling then r.nextSibling.toNat
      else if 0 ≤ r.prefixIdx then closestAncestorEnd rows fuel r.prefixIdx.toNat
      else rows.length

mutual

/-- No two children of any node in this subtree share a func. -/
def treeDedup : CallTree → Bool
  | .node _ cs => forestDedup cs

/-- The roots of the forest have pairwise distinct funcs, and every subtree
is deduplicated. -/
def forestDedup : List CallTree → Bool
  | [] => true
  | t :: ts => treeDedup t && forestDedup ts && ts.all (fun u => u.func != t.func)

end

/-! ## Symbolication Merger (spec 4.4; tests lines 488-560; FuncToFuncMap) -/

/-- The columns of a thread that carry function information: the FuncTable's
name and resource columns, the FrameTable's func column, and (when already
built) the CallNodeTable's func column. -/
structure SymThread where
  funcNames : List String
  funcResource : List Nat
  frameFunc : List Nat
  callNodeFunc : Option (List Nat)
deriving Repr, DecidableEq

/-- The least `k < n` with `p k`, if any. -/
def leastSuchThat (p : Nat → Bool) : Nat → Option Nat
  | 0 => none
  | n + 1 =>
    match leastSuchThat p n with
    | some k => some k
    | none => if p n then some n else none

/-- Modelled from the spec: the `oldFunc → newFunc` remap of the
Symbolication Merger (spec section 4.4; `symbolication.js` is absent from the
sources).  A func that resolves to a symbol is mapped to the canonical
survivor: the lowest-indexed func in the same resource resolving to the
identical symbol (this always exists — the func itself qualifies).  An
unresolved func maps to itself. -/
def oldFuncToNewFunc (t : SymThread) (resolve : Nat → Option String) (i : Nat) : Nat :=
  match resolve i with
  | none => i
  | some s =>
    (leastSuchThat
      (fun j => (t.funcResource.get? j == t.funcResource.get? i)
        && (resolve j == some s))
      t.funcNames.length).getD i

/-- Modelled from the spec: `applyFunctionMerging` rewrites every table that
references function indices (FrameTable, and the CallNodeTable if already
built) through the remap, in a single update. -/
def applyFunctionMerging (t : SymThread) (remap : Nat → Nat) : SymThread :=
  { t with frameFunc := t.frameFunc.map remap,
           callNodeFunc := t.callNodeFunc.map (fun l => l.map remap) }

/-- Modelled from the spec: `setFuncNames` assigns the given names to the
given func rows (identity on all other rows). -/
def setFuncNames (t : SymThread) (names : Nat → Option String) : SymThread :=
  { t with funcNames := (List.range t.funcNames.length).map (fun i =>
      (names i).getD (t.funcNames.getD i "")) }

/-- The name assignment produced by symbolication: survivors (funcs that are
their own remap target) receive their resolved symbol name; merged-away and
unresolved funcs receive no name. -/
def survivorNames (t : SymThread) (resolve : Nat → Option String) (i : Nat) :
    Option String :=
  if oldFuncToNewFunc t resolve i = i then resolve i else none

/-- Modelled from the spec: the full symbolication merge —
`applyFunctionMerging` through the `oldFunc → newFunc` remap, followed by
`setFuncNames` for the resolved survivors. -/
def symbolicationMerge (t : SymThread) (resolve : Nat → Option String) : SymThread :=
  setFuncNames (applyFunctionMerging t (oldFuncToNewFunc t resolve))
    (survivorNames t resolve)

/-! ## processProfile output shape (tests lines 119-169) -/

/-- The aspects of a processed capture that the library-placement claim is
about: whether the capture object carries a top-level `libs` list, and the
per-thread library debug-name lists. -/
structure ProcessedProfileShape where
  hasProfileWideLibs : Bool
  threadLibDebugNames : List (List String)
deriving Repr, DecidableEq

/-- Transcribed from the `describe('processProfile')` unit test in the
sources (`process-profile.js` itself is absent from the sources; the test
pins the observable output of `processProfile` on the 3-thread example
fixture): the output has no profile-wide `libs` property (the test asserts
`'libs' in profile` to be falsy), and each of the three threads carries its
own library list with exactly these debug names, in this order. -/
def processedExampleProfile : ProcessedProfileShape :=
  ⟨false,
    [["firefox", "examplebinary", "examplebinary2.pdb"],
     ["firefox", "examplebinary", "examplebinary2.pdb"],
     ["firefox-webcontent", "examplebinary", "examplebinary2.pdb"]]⟩

/-! # Theorems -/

/-! ## Call-node forest lemmas -/

theorem CallTree.size_pos (t : CallTree) : 0 < t.size := by
  cases t with
  | node f cs =>
    rw [CallTree.size]
    omega

mutual

theorem flattenTree_length (parent nextSib : Int) (i : Nat) (t : CallTree) :
    (flattenTree parent nextSib i t).length = t.size := by
  cases t with
  | node f cs =>
    rw [flattenTree, List.length_cons, flattenForest_length, CallTree.size]
    omega

theorem flattenForest_length (parent : Int) (i : Nat) (ts : List CallTree) :
    (flattenForest parent i ts).length = sizeForest ts := by
  cases ts with
  | nil => rfl
  | cons t ts =>
    rw [flattenForest, List.length_append, flattenTree_length, flattenForest_length,
      sizeForest]

end

mutual

theorem treeNodeAt_isSome (t : CallTree) (k : Nat) (hk : k < t.size) :
    ∃ u, treeNodeAt t k = some u := by
  cases t with
  | node f cs =>
    cases k with
    | zero => exact ⟨_, rfl⟩
    | succ k =>
      rw [treeNodeAt]
      refine forestNodeAt_isSome cs k ?_
      rw [CallTree.size] at hk
      omega

theorem forestNodeAt_isSome (ts : List CallTree) (k : Nat) (hk : k < sizeForest ts) :
    ∃ u, forestNodeAt ts k = some u := by
  cases ts with
  | nil =>
    rw [sizeForest] at hk
    omega
  | cons t ts =>
    rw [forestNodeAt]
    by_cases h : k < t.size
    · rw [if_pos h]
      exact treeNodeAt_isSome t k h
    · rw [if_neg h]
      refine forestNodeAt_isSome ts (k - t.size) ?_
      rw [sizeForest] at hk
      omega

end

mutual

theorem treeNodeAt_size_le (t : CallTree) (k : Nat) (u : CallTree)
    (h : treeNodeAt t k = some u) : k + u.size ≤ t.size := by
  cases t with
  | node f cs =>
    cases k with
    | zero =>
      rw [treeNodeAt] at h
      cases h
      omega
    | succ k =>
      rw [treeNodeAt] at h
      have := forestNodeAt_size_le cs k u h
      rw [CallTree.size]
      omega

theorem forestNodeAt_size_le (ts : List CallTree) (k : Nat) (u : CallTree)
    (h : forestNodeAt ts k = some u) : k + u.size ≤ sizeForest ts := by
  cases ts with
  | nil =>
    rw [forestNodeAt] at h
    cases h
  | cons t ts =>
    rw [forestNodeAt] at h
    rw [sizeForest]
    by_cases hk : k < t.size
    · rw [if_pos hk] at h
      have := treeNodeAt_size_le t k u h
      omega
    · rw [if_neg hk] at h
      have := forestNodeAt_size_le ts (k - t.size) u h
      omega

end

theorem CNRow.mk_eq (f1 f2 : Nat) (p1 p2 s1 s2 : Int) (e1 e2 : Nat)
    (hf : f1 = f2) (hp : p1 = p2) (hs : s1 = s2) (he : e1 = e2) :
    (⟨f1, p1, s1, e1⟩ : CNRow) = ⟨f2, p2, s2, e2⟩ := by
  rw [hf, hp, hs, he]

mutual

theorem flattenTree_get (parent nextSib : Int) (i k : Nat) (t : CallTree)
    (hk : k < t.size) :
    ∃ u, treeNodeAt t k = some u ∧
      (flattenTree parent nextSib i t).get? k = some
        ⟨u.func,
         renderParent parent i (treeParentOf t k),
         (if k = 0 then nextSib else renderSib i (treeNextSibOf t k)),
         i + k + u.size⟩ := by
  cases t with
  | node f cs =>
    cases k with
    | zero =>
      refine ⟨CallTree.node f cs, rfl, ?_⟩
      rw [flattenTree]
      rw [List.get?_cons_zero]
      refine congrArg some (CNRow.mk_eq _ _ _ _ _ _ _ _ rfl rfl (by rw [if_pos rfl]) ?_)
      rw [CallTree.size]
      omega
    | succ k =>
      have hk' : k < sizeForest cs := by
        rw [CallTree.size] at hk
        omega
      obtain ⟨u, hu, hget⟩ := flattenForest_get (i : Int) (i + 1) k cs hk'
      refine ⟨u, by rw [treeNodeAt, hu], ?_⟩
      rw [flattenTree, List.get?_cons_succ, hget]
      have h1 : treeParentOf (CallTree.node f cs) (k + 1)
          = match forestParentOf cs k with
            | some q => some (q + 1)
            | none => some 0 := rfl
      have h2 : treeNextSibOf (CallTree.node f cs) (k + 1)
          = (forestNextSibOf cs k).map (· + 1) := rfl
      rw [h1, h2]
      rcases forestParentOf cs k with _ | q <;>
        rcases forestNextSibOf cs k with _ | s <;>
        exact congrArg some (CNRow.mk_eq _ _ _ _ _ _ _ _ rfl
          (by first | rfl | (refine congrArg (fun n : Nat => (n : Int)) ?_; beta_reduce; omega))
          (by first | rfl | (refine congrArg (fun n : Nat => (n : Int)) ?_; beta_reduce; omega))
          (by omega))

theorem flattenForest_get (parent : Int) (i k : Nat) (ts : List CallTree)
    (hk : k < sizeForest ts) :
    ∃ u, forestNodeAt ts k = some u ∧
      (flattenForest parent i ts).get? k = some
        ⟨u.func,
         renderParent parent i (forestParentOf ts k),
         renderSib i (forestNextSibOf ts k),
         i + k + u.size⟩ := by
  cases ts with
  | nil =>
    rw [sizeForest] at hk
    omega
  | cons t ts =>
    rw [sizeForest] at hk
    by_cases h : k < t.size
    · obtain ⟨u, hu, hget⟩ := flattenTree_get parent
        (if ts.isEmpty then -1 else ((i + t.size : Nat) : Int)) i k t h
      refine ⟨u, by rw [forestNodeAt, if_pos h, hu], ?_⟩
      rw [flattenForest, List.get?_append (by rw [flattenTree_length]; exact h), hget]
      have hp : forestParentOf (t :: ts) k = treeParentOf t k := by
        rw [forestParentOf, if_pos h]
      have hs : forestNextSibOf (t :: ts) k
          = match treeNextSibOf t k with
            | some q => some q
            | none =>
              if k = 0 then (if ts.isEmpty then none else some t.size) else none := by
        rw [forestNextSibOf, if_pos h]
      rw [hp, hs]
      rcases hts : treeNextSibOf t k with _ | q
      · by_cases hk0 : k = 0
        · subst hk0
          cases hemp : ts.isEmpty
          · rfl
          · rfl
        · rw [if_neg hk0, if_neg hk0]
      · have hk0 : k ≠ 0 := by
          intro h0
          subst h0
          have hnone : treeNextSibOf t 0 = none := by
            cases t
            rfl
          rw [hnone] at hts
          cases hts
        rw [if_neg hk0]
    · obtain ⟨u, hu, hget⟩ :=
        flattenForest_get parent (i + t.size) (k - t.size) ts (by omega)
      refine ⟨u, by rw [forestNodeAt, if_neg h, hu], ?_⟩
      rw [flattenForest,
        List.get?_append_right (by rw [flattenTree_length]; omega),
        flattenTree_length, hget]
      have hp : forestParentOf (t :: ts) k
          = (forestParentOf ts (k - t.size)).map (· + t.size) := by
        rw [forestParentOf, if_neg h]
      have hs : forestNextSibOf (t :: ts) k
          = (forestNextSibOf ts (k - t.size)).map (· + t.size) := by
        rw [forestNextSibOf, if_neg h]
      rw [hp, hs]
      rcases forestParentOf ts (k - t.size) with _ | q <;>
        rcases forestNextSibOf ts (k - t.size) with _ | s <;>
        exact congrArg some (CNRow.mk_eq _ _ _ _ _ _ _ _ rfl
          (by first | rfl | (refine congrArg (fun n : Nat => (n : Int)) ?_; beta_reduce; omega))
          (by first | rfl | (refine congrArg (fun n : Nat => (n : Int)) ?_; beta_reduce; omega))
          (by omega))

end

theorem sizeForest_pos (ts : List CallTree) (h : ts ≠ []) : 1 ≤ sizeForest ts := by
  cases ts with
  | nil => exact absurd rfl h
  | cons t ts =>
    rw [sizeForest]
    have := t.size_pos
    omega

mutual

theorem treeParentOf_spec (t : CallTree) (k q : Nat) (hk : k < t.size)
    (h : treeParentOf t k = some q) :
    ∃ tq tk, treeNodeAt t q = some tq ∧ treeNodeAt t k = some tk
      ∧ q < k ∧ k + tk.size ≤ q + tq.size := by
  cases t with
  | node f cs =>
    cases k with
    | zero => cases h
    | succ k =>
      have hk' : k < sizeForest cs := by
        rw [CallTree.size] at hk
        omega
      rw [treeParentOf] at h
      rcases hP : forestParentOf cs k with _ | q'
      · rw [hP] at h
        cases h
        obtain ⟨tk, htk⟩ := forestNodeAt_isSome cs k hk'
        have hsz := forestNodeAt_size_le cs k tk htk
        refine ⟨CallTree.node f cs, tk, rfl, by rw [treeNodeAt, htk], by omega, ?_⟩
        rw [CallTree.size]
        omega
      · rw [hP] at h
        cases h
        obtain ⟨tq, tk, htq, htk, hlt, hsz⟩ := forestParentOf_spec cs k q' hk' hP
        exact ⟨tq, tk, by rw [treeNodeAt, htq], by rw [treeNodeAt, htk],
          by omega, by omega⟩

theorem forestParentOf_spec (ts : List CallTree) (k q : Nat) (hk : k < sizeForest ts)
    (h : forestParentOf ts k = some q) :
    ∃ tq tk, forestNodeAt ts q = some tq ∧ forestNodeAt ts k = some tk
      ∧ q < k ∧ k + tk.size ≤ q + tq.size := by
  cases ts with
  | nil => cases h
  | cons t ts =>
    rw [sizeForest] at hk
    rw [forestParentOf] at h
    by_cases hlt : k < t.size
    · rw [if_pos hlt] at h
      obtain ⟨tq, tk, htq, htk, h1, h2⟩ := treeParentOf_spec t k q hlt h
      have hq : q < t.size := by omega
      exact ⟨tq, tk, by rw [forestNodeAt, if_pos hq, htq],
        by rw [forestNodeAt, if_pos hlt, htk], h1, h2⟩
    · rw [if_neg hlt] at h
      rcases hP : forestParentOf ts (k - t.size) with _ | q'
      · rw [hP] at h
        cases h
      · rw [hP] at h
        have hq : q = q' + t.size := by
          simpa using h.symm
        subst hq
        obtain ⟨tq, tk, htq, htk, h1, h2⟩ :=
          forestParentOf_spec ts (k - t.size) q' (by omega) hP
        refine ⟨tq, tk, ?_, ?_, by omega, by omega⟩
        · rw [forestNodeAt, if_neg (by omega),
            show q' + t.size - t.size = q' from by omega, htq]
        · rw [forestNodeAt, if_neg hlt, htk]

end

mutual

theorem treeParentOf_inner (t : CallTree) (k m : Nat) (u : CallTree)
    (hu : treeNodeAt t k = some u) (h1 : k < m) (h2 : m < k + u.size) :
    ∃ q, treeParentOf t m = some q ∧ k ≤ q := by
  cases t with
  | node f cs =>
    cases k with
    | zero =>
      cases m with
      | zero => omega
      | succ m =>
        rcases hP : forestParentOf cs m with _ | q'
        · exact ⟨0, by rw [treeParentOf, hP], Nat.zero_le 0⟩
        · exact ⟨q' + 1, by rw [treeParentOf, hP], Nat.zero_le _⟩
    | succ k =>
      have hu' : forestNodeAt cs k = some u := hu
      cases m with
      | zero => omega
      | succ m =>
        obtain ⟨q, hq, hle⟩ :=
          forestParentOf_inner cs k m u hu' (by omega) (by omega)
        exact ⟨q + 1, by rw [treeParentOf, hq], by omega⟩

theorem forestParentOf_inner (ts : List CallTree) (k m : Nat) (u : CallTree)
    (hu : forestNodeAt ts k = some u) (h1 : k < m) (h2 : m < k + u.size) :
    ∃ q, forestParentOf ts m = some q ∧ k ≤ q := by
  cases ts with
  | nil => cases hu
  | cons t ts =>
    rw [forestNodeAt] at hu
    by_cases hlt : k < t.size
    · rw [if_pos hlt] at hu
      have hm : m < t.size := by
        have := treeNodeAt_size_le t k u hu
        omega
      obtain ⟨q, hq, hle⟩ := treeParentOf_inner t k m u hu h1 h2
      exact ⟨q, by rw [forestParentOf, if_pos hm, hq], hle⟩
    · rw [if_neg hlt] at hu
      have hm : ¬ m < t.size := by omega
      obtain ⟨q, hq, hle⟩ :=
        forestParentOf_inner ts (k - t.size) (m - t.size) u hu (by omega) (by omega)
      refine ⟨q + t.size, ?_, by omega⟩
      rw [forestParentOf, if_neg hm, hq, Option.map_some']

end

mutual

theorem treeNextSib_spec (t : CallTree) (k : Nat) (u : CallTree)
    (hk : k < t.size) (hu : treeNodeAt t k = some u) (hk0 : k ≠ 0) :
    match treeNextSibOf t k with
    | some s => s = k + u.size ∧ s < t.size ∧ treeParentOf t s = treeParentOf t k
    | none => ∃ q tq, treeParentOf t k = some q ∧ treeNodeAt t q = some tq
        ∧ k + u.size = q + tq.size := by
  cases t with
  | node f cs =>
    cases k with
    | zero => exact absurd rfl hk0
    | succ k =>
      have hk' : k < sizeForest cs := by
        rw [CallTree.size] at hk
        omega
      have hu' : forestNodeAt cs k = some u := hu
      have hrec := forestNextSib_spec cs k u hk' hu'
      have hts : treeNextSibOf (CallTree.node f cs) (k + 1)
          = (forestNextSibOf cs k).map (· + 1) := rfl
      rw [hts]
      rcases hS : forestNextSibOf cs k with _ | s
      · rw [hS] at hrec
        rcases hP : forestParentOf cs k with _ | q
        · rw [hP] at hrec
          have hsz : k + u.size = sizeForest cs := hrec
          refine ⟨0, CallTree.node f cs, by rw [treeParentOf, hP], rfl, ?_⟩
          rw [CallTree.size]
          omega
        · rw [hP] at hrec
          obtain ⟨tq, htq, hsz⟩ : ∃ tq, forestNodeAt cs q = some tq
              ∧ k + u.size = q + tq.size := hrec
          exact ⟨q + 1, tq, by rw [treeParentOf, hP], by rw [treeNodeAt, htq],
            by omega⟩
      · rw [hS] at hrec
        obtain ⟨h1, h2, h3⟩ : s = k + u.size ∧ s < sizeForest cs
            ∧ forestParentOf cs s = forestParentOf cs k := hrec
        show s + 1 = (k + 1) + u.size ∧ s + 1 < (CallTree.node f cs).size
          ∧ treeParentOf (CallTree.node f cs) (s + 1)
            = treeParentOf (CallTree.node f cs) (k + 1)
        refine ⟨by omega, ?_, ?_⟩
        · rw [CallTree.size]
          omega
        · rw [treeParentOf, treeParentOf, h3]

theorem forestNextSib_spec (ts : List CallTree) (k : Nat) (u : CallTree)
    (hk : k < sizeForest ts) (hu : forestNodeAt ts k = some u) :
    match forestNextSibOf ts k with
    | some s => s = k + u.size ∧ s < sizeForest ts
        ∧ forestParentOf ts s = forestParentOf ts k
    | none =>
      match forestParentOf ts k with
      | some q => ∃ tq, forestNodeAt ts q = some tq ∧ k + u.size = q + tq.size
      | none => k + u.size = sizeForest ts := by
  cases ts with
  | nil => cases hu
  | cons t ts =>
    rw [sizeForest] at hk
    rw [forestNodeAt] at hu
    by_cases hlt : k < t.size
    · rw [if_pos hlt] at hu
      have hfs : forestNextSibOf (t :: ts) k
          = match treeNextSibOf t k with
            | some q => some q
            | none =>
              if k = 0 then (if ts.isEmpty then none else some t.size) else none := by
        rw [forestNextSibOf, if_pos hlt]
      by_cases hk0 : k = 0
      · subst hk0
        have hut : u = t := by
          rw [treeNodeAt] at hu
          cases hu
          rfl
        subst hut
        have htn : treeNextSibOf u 0 = none := by
          cases u
          rfl
        cases ts with
        | nil =>
          have hsib : forestNextSibOf [u] 0 = none := by
            rw [hfs, htn]
            rfl
          have hpar : forestParentOf [u] 0 = none := by
            rw [forestParentOf, if_pos u.size_pos]
            cases u
            rfl
          rw [hsib, hpar]
          show 0 + u.size = sizeForest [u]
          have h0 : sizeForest [u] = u.size + 0 := rfl
          omega
        | cons t' ts' =>
          have hsib : forestNextSibOf (u :: t' :: ts') 0 = some u.size := by
            rw [hfs, htn]
            rfl
          rw [hsib]
          refine ⟨by omega, ?_, ?_⟩
          · rw [sizeForest]
            have := sizeForest_pos (t' :: ts') (by simp)
            omega
          · have h1 : forestParentOf (u :: t' :: ts') u.size
                = (forestParentOf (t' :: ts') 0).map (· + u.size) := by
              rw [forestParentOf, if_neg (by omega),
                show u.size - u.size = 0 from by omega]
            have h2 : forestParentOf (t' :: ts') 0 = treeParentOf t' 0 := by
              rw [forestParentOf, if_pos t'.size_pos]
            have h3 : treeParentOf t' 0 = none := by
              cases t'
              rfl
            have h4 : forestParentOf (u :: t' :: ts') 0 = treeParentOf u 0 := by
              rw [forestParentOf, if_pos u.size_pos]
            have h5 : treeParentOf u 0 = none := by
              cases u
              rfl
            rw [h1, h2, h3, h4, h5, Option.map_none']
      · have hrec := treeNextSib_spec t k u hlt hu hk0
        rw [hfs]
        rcases hS : treeNextSibOf t k with _ | s
        · rw [hS] at hrec
          obtain ⟨q, tq, hq, htq, hsz⟩ : ∃ q tq, treeParentOf t k = some q
              ∧ treeNodeAt t q = some tq ∧ k + u.size = q + tq.size := hrec
          rw [if_neg hk0]
          have hql : q < t.size := by
            obtain ⟨_, _, _, _, hqk, _⟩ := treeParentOf_spec t k q hlt hq
            omega
          have hpk : forestParentOf (t :: ts) k = treeParentOf t k := by
            rw [forestParentOf, if_pos hlt]
          rw [hpk, hq]
          exact ⟨tq, by rw [forestNodeAt, if_pos hql, htq], hsz⟩
        · rw [hS] at hrec
          obtain ⟨h1, h2, h3⟩ : s = k + u.size ∧ s < t.size
              ∧ treeParentOf t s = treeParentOf t k := hrec
          refine ⟨h1, by rw [sizeForest]; omega, ?_⟩
          have hp1 : forestParentOf (t :: ts) s = treeParentOf t s := by
            rw [forestParentOf, if_pos h2]
          have hp2 : forestParentOf (t :: ts) k = treeParentOf t k := by
            rw [forestParentOf, if_pos hlt]
          rw [hp1, hp2, h3]
    · rw [if_neg hlt] at hu
      have hrec := forestNextSib_spec ts (k - t.size) u (by omega) hu
      have hfs : forestNextSibOf (t :: ts) k
          = (forestNextSibOf ts (k - t.size)).map (· + t.size) := by
        rw [forestNextSibOf, if_neg hlt]
      have hfp : forestParentOf (t :: ts) k
          = (forestParentOf ts (k - t.size)).map (· + t.size) := by
        rw [forestParentOf, if_neg hlt]
      rw [hfs]
      rcases hS : forestNextSibOf ts (k - t.size) with _ | s
      · rw [hS] at hrec
        rw [Option.map_none']
        rcases hP : forestParentOf ts (k - t.size) with _ | q
        · rw [hP] at hrec
          have hsz : k - t.size + u.size = sizeForest ts := hrec
          rw [hfp, hP, Option.map_none', sizeForest]
          omega
        · rw [hP] at hrec
          obtain ⟨tq, htq, hsz⟩ : ∃ tq, forestNodeAt ts q = some tq
              ∧ k - t.size + u.size = q + tq.size := hrec
          rw [hfp, hP, Option.map_some']
          refine ⟨tq, ?_, by omega⟩
          rw [forestNodeAt, if_neg (by omega),
            show q + t.size - t.size = q from by omega, htq]
      · rw [hS] at hrec
        obtain ⟨h1, h2, h3⟩ : s = k - t.size + u.size ∧ s < sizeForest ts
            ∧ forestParentOf ts s = forestParentOf ts (k - t.size) := hrec
        rw [Option.map_some']
        refine ⟨by omega, by rw [sizeForest]; omega, ?_⟩
        have hps : forestParentOf (t :: ts) (s + t.size)
            = (forestParentOf ts s).map (· + t.size) := by
          rw [forestParentOf, if_neg (by omega),
            show s + t.size - t.size = s from by omega]
        rw [hps, hfp, h3]

end

mutual

theorem treePathTo_spec (t : CallTree) (k : Nat) (u : CallTree)
    (hk : k < t.size) (hu : treeNodeAt t k = some u) :
    treePathTo t k = (match treeParentOf t k with
      | none => []
      | some q => treePathTo t q) ++ [u.func] := by
  cases t with
  | node f cs =>
    cases k with
    | zero =>
      have hut : u = CallTree.node f cs := by
        rw [treeNodeAt] at hu
        cases hu
        rfl
      subst hut
      rfl
    | succ k =>
      have hk' : k < sizeForest cs := by
        rw [CallTree.size] at hk
        omega
      have hu' : forestNodeAt cs k = some u := hu
      have hrec := forestPathTo_spec cs k u hk' hu'
      have hpath : treePathTo (CallTree.node f cs) (k + 1) = f :: forestPathTo cs k :=
        rfl
      rw [hpath, hrec]
      rcases hP : forestParentOf cs k with _ | q
      · rw [treeParentOf, hP]
        rfl
      · rw [treeParentOf, hP]
        rfl

theorem forestPathTo_spec (ts : List CallTree) (k : Nat) (u : CallTree)
    (hk : k < sizeForest ts) (hu : forestNodeAt ts k = some u) :
    forestPathTo ts k = (match forestParentOf ts k with
      | none => []
      | some q => forestPathTo ts q) ++ [u.func] := by
  cases ts with
  | nil => cases hu
  | cons t ts =>
    rw [sizeForest] at hk
    rw [forestNodeAt] at hu
    by_cases hlt : k < t.size
    · rw [if_pos hlt] at hu
      have hrec := treePathTo_spec t k u hlt hu
      have h1 : forestPathTo (t :: ts) k = treePathTo t k := by
        rw [forestPathTo, if_pos hlt]
      have h2 : forestParentOf (t :: ts) k = treeParentOf t k := by
        rw [forestParentOf, if_pos hlt]
      rw [h1, h2, hrec]
      rcases hP : treeParentOf t k with _ | q
      · rfl
      · have hql : q < t.size := by
          obtain ⟨_, _, _, _, hqk, _⟩ := treeParentOf_spec t k q hlt hP
          omega
        have h3 : forestPathTo (t :: ts) q = treePathTo t q := by
          rw [forestPathTo, if_pos hql]
        show treePathTo t q ++ [u.func] = forestPathTo (t :: ts) q ++ [u.func]
        rw [h3]
    · rw [if_neg hlt] at hu
      have hrec := forestPathTo_spec ts (k - t.size) u (by omega) hu
      have h1 : forestPathTo (t :: ts) k = forestPathTo ts (k - t.size) := by
        rw [forestPathTo, if_neg hlt]
      have h2 : forestParentOf (t :: ts) k
          = (forestParentOf ts (k - t.size)).map (· + t.size) := by
        rw [forestParentOf, if_neg hlt]
      rw [h1, h2, hrec]
      rcases hP : forestParentOf ts (k - t.size) with _ | q
      · rfl
      · have hql : q < sizeForest ts := by
          obtain ⟨tq, _, htq, _, hqk, _⟩ :=
            forestParentOf_spec ts (k - t.size) q (by omega) hP
          have := forestNodeAt_size_le ts q tq htq
          have := tq.size_pos
          omega
        have h3 : forestPathTo (t :: ts) (q + t.size) = forestPathTo ts q := by
          rw [forestPathTo, if_neg (by omega),
            show q + t.size - t.size = q from by omega]
        show forestPathTo ts q ++ [u.func]
          = forestPathTo (t :: ts) (q + t.size) ++ [u.func]
        rw [h3]

end

/-! ## Table-level facts about the finalized CallNodeTable -/

theorem callNodeTableOfForest_length (ts : List CallTree) :
    (callNodeTableOfForest ts).length = sizeForest ts := by
  rw [callNodeTableOfForest, flattenForest_length]

theorem callNodeTableOfForest_get (ts : List CallTree) (k : Nat) (r : CNRow)
    (h : (callNodeTableOfForest ts).get? k = some r) :
    ∃ u, forestNodeAt ts k = some u ∧ r.func = u.func
      ∧ r.prefixIdx = renderParent (-1) 0 (forestParentOf ts k)
      ∧ r.nextSibling = renderSib 0 (forestNextSibOf ts k)
      ∧ r.subtreeRangeEnd = k + u.size := by
  have hk : k < sizeForest ts := by
    by_contra hc
    rw [List.get?_eq_none.mpr (by rw [callNodeTableOfForest_length]; omega)] at h
    cases h
  obtain ⟨u, hu, hget⟩ := flattenForest_get (-1) 0 k ts hk
  rw [callNodeTableOfForest] at h
  rw [h] at hget
  have hr := Option.some.inj hget
  refine ⟨u, hu, ?_, ?_, ?_, ?_⟩
  · rw [hr]
  · rw [hr]
  · rw [hr]
  · rw [hr]
    show 0 + k + u.size = k + u.size
    omega

theorem callNodeTable_isSome (ts : List CallTree) (k : Nat)
    (hk : k < (callNodeTableOfForest ts).length) :
    ∃ r, (callNodeTableOfForest ts).get? k = some r := by
  rcases h : (callNodeTableOfForest ts).get? k with _ | r
  · rw [List.get?_eq_none] at h
    omega
  · exact ⟨r, rfl⟩

theorem cn_bounds (ts : List CallTree) (k : Nat) (r : CNRow)
    (h : (callNodeTableOfForest ts).get? k = some r) :
    k < r.subtreeRangeEnd ∧ r.subtreeRangeEnd ≤ (callNodeTableOfForest ts).length := by
  obtain ⟨u, hu, _, _, _, hend⟩ := callNodeTableOfForest_get ts k r h
  have h1 := u.size_pos
  have h2 := forestNodeAt_size_le ts k u hu
  rw [callNodeTableOfForest_length]
  omega

theorem cn_parent (ts : List CallTree) (k : Nat) (r : CNRow)
    (h : (callNodeTableOfForest ts).get? k = some r) :
    r.prefixIdx = -1
    ∨ ∃ (p : Nat) (rp : CNRow), r.prefixIdx = (p : Int)
        ∧ (callNodeTableOfForest ts).get? p = some rp ∧ p < k
        ∧ k < rp.subtreeRangeEnd ∧ r.subtreeRangeEnd ≤ rp.subtreeRangeEnd := by
  obtain ⟨u, hu, _, hpar, _, hend⟩ := callNodeTableOfForest_get ts k r h
  have hk : k < sizeForest ts := by
    by_contra hc
    rw [show forestNodeAt ts k = none from ?_] at hu
    · cases hu
    · rcases hx : forestNodeAt ts k with _ | v
      · rfl
      · have := forestNodeAt_size_le ts k v hx
        have := v.size_pos
        omega
  rcases hP : forestParentOf ts k with _ | q
  · rw [hP] at hpar
    exact Or.inl hpar
  · rw [hP] at hpar
    obtain ⟨tq, tk, htq, htk, hlt, hsz⟩ := forestParentOf_spec ts k q hk hP
    have hql : q < (callNodeTableOfForest ts).length := by
      rw [callNodeTableOfForest_length]
      omega
    obtain ⟨rq, hrq⟩ := callNodeTable_isSome ts q hql
    obtain ⟨u', hu', _, _, _, hendq⟩ := callNodeTableOfForest_get ts q rq hrq
    rw [htq] at hu'
    have hu'' := Option.some.inj hu'
    subst hu''
    rw [htk] at hu
    have huk := Option.some.inj hu
    subst huk
    have hp1 := tk.size_pos
    have hp2 := tq.size_pos
    refine Or.inr ⟨q, rq, ?_, hrq, by omega, by omega, by omega⟩
    rw [hpar, renderParent]
    have h0 : 0 + q = q := by omega
    rw [h0]

theorem cn_inner_parent (ts : List CallTree) (k m : Nat) (rk rm : CNRow)
    (hk : (callNodeTableOfForest ts).get? k = some rk)
    (hm : (callNodeTableOfForest ts).get? m = some rm)
    (h1 : k < m) (h2 : m < rk.subtreeRangeEnd) :
    ∃ p : Nat, rm.prefixIdx = (p : Int) ∧ k ≤ p ∧ p < m := by
  obtain ⟨u, hu, _, _, _, hend⟩ := callNodeTableOfForest_get ts k rk hk
  obtain ⟨um, hum, _, hparm, _, _⟩ := callNodeTableOfForest_get ts m rm hm
  obtain ⟨q, hq, hle⟩ := forestParentOf_inner ts k m u hu h1 (by omega)
  have hmlen : m < sizeForest ts := by
    have h3 := forestNodeAt_size_le ts m um hum
    have h4 := um.size_pos
    omega
  obtain ⟨_, _, _, _, hqm, _⟩ := forestParentOf_spec ts m q hmlen hq
  rw [hq, renderParent] at hparm
  refine ⟨q, ?_, hle, hqm⟩
  rw [hparm]
  have h0 : 0 + q = q := by omega
  rw [h0]

theorem cn_sibling (ts : List CallTree) (k : Nat) (rk : CNRow)
    (hk : (callNodeTableOfForest ts).get? k = some rk) :
    (∃ (s : Nat) (rs : CNRow), rk.nextSibling = (s : Int)
        ∧ (callNodeTableOfForest ts).get? s = some rs
        ∧ s = rk.subtreeRangeEnd ∧ rs.prefixIdx = rk.prefixIdx)
    ∨ (rk.nextSibling = -1
        ∧ ((∃ (p : Nat) (rp : CNRow), rk.prefixIdx = (p : Int)
              ∧ (callNodeTableOfForest ts).get? p = some rp
              ∧ rk.subtreeRangeEnd = rp.subtreeRangeEnd)
          ∨ (rk.prefixIdx = -1
              ∧ rk.subtreeRangeEnd = (callNodeTableOfForest ts).length))) := by
  obtain ⟨u, hu, _, hpar, hsib, hend⟩ := callNodeTableOfForest_get ts k rk hk
  have hklen : k < sizeForest ts := by
    have h3 := forestNodeAt_size_le ts k u hu
    have h4 := u.size_pos
    omega
  have hrec := forestNextSib_spec ts k u hklen hu
  rcases hS : forestNextSibOf ts k with _ | s
  · rw [hS] at hrec hsib
    refine Or.inr ⟨hsib, ?_⟩
    rcases hP : forestParentOf ts k with _ | q
    · rw [hP] at hrec hpar
      have hsz : k + u.size = sizeForest ts := hrec
      refine Or.inr ⟨hpar, ?_⟩
      rw [callNodeTableOfForest_length]
      omega
    · rw [hP] at hrec hpar
      obtain ⟨tq, htq, hsz⟩ : ∃ tq, forestNodeAt ts q = some tq
          ∧ k + u.size = q + tq.size := hrec
      have hql : q < (callNodeTableOfForest ts).length := by
        rw [callNodeTableOfForest_length]
        have := forestNodeAt_size_le ts q tq htq
        have := tq.size_pos
        omega
      obtain ⟨rq, hrq⟩ := callNodeTable_isSome ts q hql
      obtain ⟨u', hu', _, _, _, hendq⟩ := callNodeTableOfForest_get ts q rq hrq
      rw [htq] at hu'
      have hu'' := Option.some.inj hu'
      subst hu''
      refine Or.inl ⟨q, rq, ?_, hrq, ?_⟩
      · rw [hpar, renderParent]
        have h0 : 0 + q = q := by omega
        rw [h0]
      · omega
  · rw [hS] at hrec hsib
    obtain ⟨h1, h2, h3⟩ : s = k + u.size ∧ s < sizeForest ts
        ∧ forestParentOf ts s = forestParentOf ts k := hrec
    obtain ⟨rs, hrs⟩ := callNodeTable_isSome ts s
      (by rw [callNodeTableOfForest_length]; omega)
    obtain ⟨us, hus, _, hpars, _, _⟩ := callNodeTableOfForest_get ts s rs hrs
    refine Or.inl ⟨s, rs, ?_, hrs, by omega, ?_⟩
    · rw [hsib, renderSib]
      have h0 : 0 + s = s := by omega
      rw [h0]
    · rw [hpars, hpar, h3]

theorem cn_get_lt (ts : List CallTree) (m : Nat) (r : CNRow)
    (h : (callNodeTableOfForest ts).get? m = some r) :
    m < (callNodeTableOfForest ts).length := by
  by_contra hc
  rw [List.get?_eq_none.mpr (by omega)] at h
  cases h

theorem cn_hwf (ts : List CallTree) :
    ∀ j r, (callNodeTableOfForest ts).get? j = some r → r.prefixIdx < (j : Int) := by
  intro j r h
  rcases cn_parent ts j r h with h1 | ⟨p, rp, hp, _, hpk, _, _⟩
  · rw [h1]
    omega
  · rw [hp]
    omega

theorem ancestorsGo_fuel (rows : List CNRow)
    (hwf : ∀ j r, rows.get? j = some r → r.prefixIdx < (j : Int)) (m : Nat) :
    ∀ fuel, m < fuel → ancestorsGo rows fuel m = ancestorsGo rows (m + 1) m := by
  induction m using Nat.strong_induction_on with
  | _ m ih =>
    intro fuel hfuel
    cases fuel with
    | zero => omega
    | succ fuel =>
      rw [ancestorsGo, ancestorsGo]
      rcases hg : rows.get? m with _ | r
      · rfl
      · show (if r.prefixIdx < 0 then []
            else r.prefixIdx.toNat :: ancestorsGo rows fuel r.prefixIdx.toNat)
          = (if r.prefixIdx < 0 then []
            else r.prefixIdx.toNat :: ancestorsGo rows m r.prefixIdx.toNat)
        by_cases hneg : r.prefixIdx < 0
        · rw [if_pos hneg, if_pos hneg]
        · rw [if_neg hneg, if_neg hneg]
          congr 1
          have hp : r.prefixIdx.toNat < m := by
            have := hwf m r hg
            omega
          rw [ih _ hp fuel (by omega), ih _ hp m (by omega)]

theorem ancestors_rec (rows : List CNRow)
    (hwf : ∀ j r, rows.get? j = some r → r.prefixIdx < (j : Int))
    (m : Nat) (r : CNRow) (hr : rows.get? m = some r) (hpos : 0 ≤ r.prefixIdx) :
    ancestors rows m = r.prefixIdx.toNat :: ancestors rows r.prefixIdx.toNat := by
  have h1 : ancestors rows m
      = if r.prefixIdx < 0 then []
        else r.prefixIdx.toNat :: ancestorsGo rows m r.prefixIdx.toNat := by
    rw [ancestors, ancestorsGo, hr]
  rw [h1, if_neg (by omega)]
  congr 1
  have hp : r.prefixIdx.toNat < m := by
    have := hwf m r hr
    omega
  rw [ancestors]
  exact ancestorsGo_fuel rows hwf _ m hp

theorem ancestors_root (rows : List CNRow) (m : Nat) (r : CNRow)
    (hr : rows.get? m = some r) (hneg : r.prefixIdx < 0) :
    ancestors rows m = [] := by
  have h1 : ancestors rows m
      = if r.prefixIdx < 0 then []
        else r.prefixIdx.toNat :: ancestorsGo rows m r.prefixIdx.toNat := by
    rw [ancestors, ancestorsGo, hr]
  rw [h1, if_pos hneg]

theorem cn_range_imp_ancestor (ts : List CallTree) (k : Nat) (rk : CNRow)
    (hk : (callNodeTableOfForest ts).get? k = some rk) :
    ∀ m, m < (callNodeTableOfForest ts).length → k < m → m < rk.subtreeRangeEnd →
      k ∈ ancestors (callNodeTableOfForest ts) m := by
  intro m
  induction m using Nat.strong_induction_on with
  | _ m ih =>
    intro hm h1 h2
    obtain ⟨rm, hrm⟩ := callNodeTable_isSome ts m hm
    obtain ⟨p, hp, hkp, hpm⟩ := cn_inner_parent ts k m rk rm hk hrm h1 h2
    have harec := ancestors_rec _ (cn_hwf ts) m rm hrm (by rw [hp]; omega)
    rw [harec]
    have hptoNat : rm.prefixIdx.toNat = p := by
      rw [hp, Int.toNat_natCast]
    rw [hptoNat]
    by_cases hpk : p = k
    · subst hpk
      exact List.mem_cons_self _ _
    · have hklt : k < p := by omega
      exact List.mem_cons_of_mem _ (ih p hpm (by omega) hklt (by omega))

theorem cn_ancestor_imp_range (ts : List CallTree) (k : Nat) :
    ∀ m rm, (callNodeTableOfForest ts).get? m = some rm →
      k ∈ ancestors (callNodeTableOfForest ts) m →
      ∃ rk, (callNodeTableOfForest ts).get? k = some rk ∧ k < m
        ∧ m < rk.subtreeRangeEnd ∧ rm.subtreeRangeEnd ≤ rk.subtreeRangeEnd := by
  intro m
  induction m using Nat.strong_induction_on with
  | _ m ih =>
    intro rm hrm hmem
    by_cases hpos : 0 ≤ rm.prefixIdx
    · have harec := ancestors_rec _ (cn_hwf ts) m rm hrm hpos
      rw [harec] at hmem
      rcases cn_parent ts m rm hrm with hneg | ⟨p, rp, hp, hrp, hpm, hmend, hend⟩
      · rw [hneg] at hpos
        omega
      · have hptoNat : rm.prefixIdx.toNat = p := by
          rw [hp, Int.toNat_natCast]
        rw [hptoNat] at hmem
        rcases List.mem_cons.mp hmem with rfl | hmem'
        · exact ⟨rp, hrp, hpm, hmend, hend⟩
        · obtain ⟨rk, hrk, h1, h2, h3⟩ := ih p hpm rp hrp hmem'
          exact ⟨rk, hrk, by omega, by omega, by omega⟩
    · rw [ancestors_root _ m rm hrm (by omega)] at hmem
      cases hmem

theorem closestAncestorEnd_fuel (rows : List CNRow)
    (hwf : ∀ j r, rows.get? j = some r → r.prefixIdx < (j : Int)) (m : Nat) :
    ∀ fuel, m < fuel →
      closestAncestorEnd rows fuel m = closestAncestorEnd rows (m + 1) m := by
  induction m using Nat.strong_induction_on with
  | _ m ih =>
    intro fuel hfuel
    cases fuel with
    | zero => omega
    | succ fuel =>
      rw [closestAncestorEnd, closestAncestorEnd]
      rcases hg : rows.get? m with _ | r
      · rfl
      · show (if 0 ≤ r.nextSibling then r.nextSibling.toNat
            else if 0 ≤ r.prefixIdx then closestAncestorEnd rows fuel r.prefixIdx.toNat
            else rows.length)
          = (if 0 ≤ r.nextSibling then r.nextSibling.toNat
            else if 0 ≤ r.prefixIdx then closestAncestorEnd rows m r.prefixIdx.toNat
            else rows.length)
        by_cases hs : 0 ≤ r.nextSibling
        · rw [if_pos hs, if_pos hs]
        · rw [if_neg hs, if_neg hs]
          by_cases hp : 0 ≤ r.prefixIdx
          · rw [if_pos hp, if_pos hp]
            have hplt : r.prefixIdx.toNat < m := by
              have := hwf m r hg
              omega
            rw [ih _ hplt fuel (by omega), ih _ hplt m (by omega)]
          · rw [if_neg hp, if_neg hp]

theorem cn_end_eq_closestAncestorEnd (ts : List CallTree) :
    ∀ k rk, (callNodeTableOfForest ts).get? k = some rk →
      rk.subtreeRangeEnd = closestAncestorEnd (callNodeTableOfForest ts) (k + 1) k := by
  intro k
  induction k using Nat.strong_induction_on with
  | _ k ih =>
    intro rk hrk
    have hunfold : closestAncestorEnd (callNodeTableOfForest ts) (k + 1) k
        = if 0 ≤ rk.nextSibling then rk.nextSibling.toNat
          else if 0 ≤ rk.prefixIdx then
            closestAncestorEnd (callNodeTableOfForest ts) k rk.prefixIdx.toNat
          else (callNodeTableOfForest ts).length := by
      rw [closestAncestorEnd, hrk]
    rcases cn_sibling ts k rk hrk with ⟨s, rs, hs, hrs, hse, hsp⟩ | ⟨hsneg, hrest⟩
    · rw [hunfold, if_pos (by rw [hs]; omega), hs, Int.toNat_natCast, hse]
    · rw [hunfold, if_neg (by rw [hsneg]; omega)]
      rcases hrest with ⟨p, rp, hp, hrp, hend⟩ | ⟨hpneg, hlen⟩
      · rw [if_pos (by rw [hp]; omega), hp, Int.toNat_natCast]
        have hplt : p < k := by
          have := cn_hwf ts k rk hrk
          rw [hp] at this
          omega
        rw [closestAncestorEnd_fuel _ (cn_hwf ts) p k hplt, ← ih p hplt rp hrp, hend]
      · rw [if_neg (by rw [hpneg]; omega), hlen]

theorem cn_sibling_genuine (ts : List CallTree) (k : Nat) (rk : CNRow)
    (hrk : (callNodeTableOfForest ts).get? k = some rk) :
    (∃ s : Nat, rk.nextSibling = (s : Int) ∧ k < s
        ∧ (∃ rs, (callNodeTableOfForest ts).get? s = some rs
            ∧ rs.prefixIdx = rk.prefixIdx)
        ∧ ∀ m rm, (callNodeTableOfForest ts).get? m = some rm → k < m → m < s →
            rm.prefixIdx ≠ rk.prefixIdx)
    ∨ (rk.nextSibling = -1
        ∧ ∀ m rm, (callNodeTableOfForest ts).get? m = some rm → k < m →
            rm.prefixIdx ≠ rk.prefixIdx) := by
  have hinner : ∀ m rm, (callNodeTableOfForest ts).get? m = some rm →
      k < m → m < rk.subtreeRangeEnd → rm.prefixIdx ≠ rk.prefixIdx := by
    intro m rm hrm h1 h2 hcon
    obtain ⟨p, hp, hkp, hpm⟩ := cn_inner_parent ts k m rk rm hrk hrm h1 h2
    have hk := cn_hwf ts k rk hrk
    rw [← hcon, hp] at hk
    omega
  rcases cn_sibling ts k rk hrk with ⟨s, rs, hs, hrs, hse, hsp⟩ | ⟨hsneg, hrest⟩
  · refine Or.inl ⟨s, hs, ?_, ⟨rs, hrs, hsp⟩, ?_⟩
    · have := (cn_bounds ts k rk hrk).1
      omega
    · intro m rm hrm h1 h2
      exact hinner m rm hrm h1 (by omega)
  · refine Or.inr ⟨hsneg, ?_⟩
    intro m rm hrm h1
    by_cases h2 : m < rk.subtreeRangeEnd
    · exact hinner m rm hrm h1 h2
    · intro hcon
      rcases hrest with ⟨p, rp, hp, hrp, hend⟩ | ⟨hpneg, hlen⟩
      · rcases cn_parent ts m rm hrm with hneg | ⟨p', rp', hp', hrp', hpm', hmend', _⟩
        · rw [hcon, hp] at hneg
          omega
        · rw [hcon, hp] at hp'
          have hpp : p = p' := by
            have := Int.natCast_inj.mp hp'
            omega
          subst hpp
          rw [hrp] at hrp'
          have := Option.some.inj hrp'
          subst this
          omega
      · have hml := cn_get_lt ts m rm hrm
        omega

/-! ## Call-Node Reducer lookup and deduplication lemmas (claims C2, C5) -/

theorem sizeForest_append (l r : List CallTree) :
    sizeForest (l ++ r) = sizeForest l + sizeForest r := by
  induction l with
  | nil =>
    rw [List.nil_append, sizeForest]
    omega
  | cons x l ih =>
    rw [List.cons_append, sizeForest, sizeForest, ih]
    omega

theorem CallTree.size_eq (t : CallTree) : t.size = 1 + sizeForest t.children := by
  cases t with
  | node f cs => rfl

theorem splitAtFunc_none (f : Nat) (ts : List CallTree) :
    splitAtFunc f ts = none ↔ ∀ u ∈ ts, u.func ≠ f := by
  induction ts with
  | nil => simp [splitAtFunc]
  | cons t ts ih =>
    rw [splitAtFunc]
    by_cases h : t.func = f
    · rw [if_pos h]
      constructor
      · intro hc
        cases hc
      · intro hall
        exact absurd h (hall t (List.mem_cons_self t ts))
    · rw [if_neg h]
      rcases hm : splitAtFunc f ts with _ | bta
      · constructor
        · intro _ u hu
          rcases List.mem_cons.mp hu with rfl | hu'
          · exact h
          · exact (ih.mp hm) u hu'
        · intro _
          rfl
      · constructor
        · intro hc
          have hc' : some ((t :: bta.1, bta.2.1, bta.2.2) :
              List CallTree × CallTree × List CallTree) = none := hc
          cases hc'
        · intro hall
          have hn : splitAtFunc f ts = none :=
            ih.mpr fun u hu => hall u (List.mem_cons_of_mem t hu)
          rw [hn] at hm
          cases hm

theorem splitAtFunc_some (f : Nat) (ts : List CallTree) :
    ∀ b t a, splitAtFunc f ts = some (b, t, a) →
      ts = b ++ t :: a ∧ t.func = f ∧ ∀ u ∈ b, u.func ≠ f := by
  induction ts with
  | nil =>
    intro b t a h
    cases h
  | cons x ts ih =>
    intro b t a h
    rw [splitAtFunc] at h
    by_cases hx : x.func = f
    · rw [if_pos hx] at h
      obtain ⟨hb, ht, ha⟩ : ([] : List CallTree) = b ∧ x = t ∧ ts = a := by
        have h2 := Option.some.inj h
        exact ⟨congrArg Prod.fst h2, congrArg (fun z => z.2.1) h2,
          congrArg (fun z => z.2.2) h2⟩
      subst hb
      subst ht
      subst ha
      refine ⟨(List.nil_append _).symm, hx, ?_⟩
      intro u hu
      cases hu
    · rw [if_neg hx] at h
      rcases hm : splitAtFunc f ts with _ | ⟨b', t', a'⟩
      · rw [hm] at h
        cases h
      · rw [hm] at h
        have h' : some ((x :: b', t', a') :
            List CallTree × CallTree × List CallTree) = some (b, t, a) := h
        obtain ⟨hb, ht, ha⟩ : x :: b' = b ∧ t' = t ∧ a' = a := by
          have h2 := Option.some.inj h'
          exact ⟨congrArg Prod.fst h2, congrArg (fun z => z.2.1) h2,
            congrArg (fun z => z.2.2) h2⟩
        subst hb
        subst ht
        subst ha
        obtain ⟨he, hf2, hforb⟩ := ih b' t' a' hm
        refine ⟨?_, hf2, ?_⟩
        · rw [List.cons_append, ← he]
        · intro u hu
          rcases List.mem_cons.mp hu with rfl | hu'
          · exact hx
          · exact hforb u hu'

theorem splitAtFunc_recompose (f : Nat) (b : List CallTree) (t : CallTree)
    (a : List CallTree) (hb : ∀ u ∈ b, u.func ≠ f) (ht : t.func = f) :
    splitAtFunc f (b ++ t :: a) = some (b, t, a) := by
  induction b with
  | nil =>
    rw [List.nil_append, splitAtFunc, if_pos ht]
  | cons x b ih =>
    rw [List.cons_append, splitAtFunc,
      if_neg (hb x (List.mem_cons_self x b)),
      ih fun u hu => hb u (List.mem_cons_of_mem x hu)]
    rfl

theorem splitAtFunc_append_left (f : Nat) (l r b : List CallTree) (t : CallTree)
    (a : List CallTree) (h : splitAtFunc f l = some (b, t, a)) :
    splitAtFunc f (l ++ r) = some (b, t, a ++ r) := by
  obtain ⟨hdec, htf, hbf⟩ := splitAtFunc_some f l b t a h
  rw [hdec, List.append_assoc, List.cons_append]
  exact splitAtFunc_recompose f b t (a ++ r) hbf htf

theorem splitAtFunc_append_right (f : Nat) (l : List CallTree) :
    ∀ r, splitAtFunc f l = none →
      splitAtFunc f (l ++ r)
        = (splitAtFunc f r).map (fun bta => (l ++ bta.1, bta.2.1, bta.2.2)) := by
  induction l with
  | nil =>
    intro r _
    rw [List.nil_append]
    rcases hr : splitAtFunc f r with _ | ⟨b, t, a⟩
    · rfl
    · rfl
  | cons x l ih =>
    intro r hnone
    rw [splitAtFunc] at hnone
    by_cases hx : x.func = f
    · rw [if_pos hx] at hnone
      cases hnone
    · rw [if_neg hx] at hnone
      have hl : splitAtFunc f l = none := by
        rcases hm : splitAtFunc f l with _ | bta
        · rfl
        · rw [hm] at hnone
          have hc : some ((x :: bta.1, bta.2.1, bta.2.2) :
              List CallTree × CallTree × List CallTree) = none := hnone
          cases hc
      rw [List.cons_append, splitAtFunc, if_neg hx, ih r hl]
      rcases hr : splitAtFunc f r with _ | ⟨b, t, a⟩
      · rfl
      · rfl

theorem lookupPathIdx_eq_none (f : Nat) (fs : List Nat) (base : Nat)
    (ts : List CallTree) (h : splitAtFunc f ts = none) :
    lookupPathIdx (f :: fs) base ts = none := by
  rw [lookupPathIdx, h]

theorem lookupPathIdx_last (f : Nat) (base : Nat) (ts b a : List CallTree)
    (t : CallTree) (h : splitAtFunc f ts = some (b, t, a)) :
    lookupPathIdx [f] base ts = some (base + sizeForest b) := by
  rw [lookupPathIdx, h]

theorem lookupPathIdx_cons (f g : Nat) (gs : List Nat) (base : Nat)
    (ts b a : List CallTree) (t : CallTree)
    (h : splitAtFunc f ts = some (b, t, a)) :
    lookupPathIdx (f :: g :: gs) base ts
      = lookupPathIdx (g :: gs) (base + sizeForest b + 1) t.children := by
  rw [lookupPathIdx, h]

theorem lookupPathIdx_base (p : List Nat) :
    ∀ base ts, lookupPathIdx p base ts
      = (lookupPathIdx p 0 ts).map (fun m => m + base) := by
  induction p with
  | nil =>
    intro base ts
    rfl
  | cons f fs ih =>
    intro base ts
    rcases h : splitAtFunc f ts with _ | ⟨b, t, a⟩
    · rw [lookupPathIdx_eq_none f fs base ts h, lookupPathIdx_eq_none f fs 0 ts h]
      rfl
    · cases fs with
      | nil =>
        rw [lookupPathIdx_last f base ts b a t h, lookupPathIdx_last f 0 ts b a t h]
        show some (base + sizeForest b) = some (0 + sizeForest b + base)
        exact congrArg some (by omega)
      | cons g gs =>
        rw [lookupPathIdx_cons f g gs base ts b a t h,
          lookupPathIdx_cons f g gs 0 ts b a t h,
          ih (base + sizeForest b + 1) t.children,
          ih (0 + sizeForest b + 1) t.children]
        rcases hl : lookupPathIdx (g :: gs) 0 t.children with _ | m
        · rfl
        · show some (m + (base + sizeForest b + 1))
            = some (m + (0 + sizeForest b + 1) + base)
          exact congrArg some (by omega)

theorem lookup_some_base (p : List Nat) (b1 b2 n : Nat) (ts : List CallTree)
    (h : lookupPathIdx p b1 ts = some n) :
    ∃ m, lookupPathIdx p b2 ts = some m := by
  rw [lookupPathIdx_base p b1 ts] at h
  rcases hx : lookupPathIdx p 0 ts with _ | k
  · rw [hx] at h
    cases h
  · refine ⟨k + b2, ?_⟩
    rw [lookupPathIdx_base p b2 ts, hx]
    rfl

theorem lookup_insert_self (fs : List Nat) :
    ∀ f base ts, ∃ n,
      lookupPathIdx (f :: fs) base (insertPath (f :: fs) ts) = some n := by
  induction fs with
  | nil =>
    intro f base ts
    rcases h : splitAtFunc f ts with _ | ⟨b, t, a⟩
    · have hins : insertPath [f] ts = ts ++ [CallTree.node f []] := by
        rw [insertPath, h]
        rfl
      have hts : ∀ u ∈ ts, u.func ≠ f := (splitAtFunc_none f ts).mp h
      have hsp : splitAtFunc f (ts ++ [CallTree.node f []])
          = some (ts, CallTree.node f [], []) :=
        splitAtFunc_recompose f ts (CallTree.node f []) [] hts rfl
      exact ⟨base + sizeForest ts, by
        rw [hins, lookupPathIdx_last f base _ ts [] _ hsp]⟩
    · obtain ⟨hdec, htf, hbf⟩ := splitAtFunc_some f ts b t a h
      have hins : insertPath [f] ts = b ++ CallTree.node f t.children :: a := by
        rw [insertPath, h]
        rfl
      have hsp : splitAtFunc f (b ++ CallTree.node f t.children :: a)
          = some (b, CallTree.node f t.children, a) :=
        splitAtFunc_recompose f b (CallTree.node f t.children) a hbf rfl
      exact ⟨base + sizeForest b, by
        rw [hins, lookupPathIdx_last f base _ b a _ hsp]⟩
  | cons g gs ih =>
    intro f base ts
    rcases h : splitAtFunc f ts with _ | ⟨b, t, a⟩
    · have hins : insertPath (f :: g :: gs) ts
          = ts ++ [CallTree.node f (insertPath (g :: gs) [])] := by
        rw [insertPath, h]
      have hts : ∀ u ∈ ts, u.func ≠ f := (splitAtFunc_none f ts).mp h
      have hsp : splitAtFunc f (ts ++ [CallTree.node f (insertPath (g :: gs) [])])
          = some (ts, CallTree.node f (insertPath (g :: gs) []), []) :=
        splitAtFunc_recompose f ts (CallTree.node f (insertPath (g :: gs) [])) []
          hts rfl
      obtain ⟨n, hn⟩ := ih g (base + sizeForest ts + 1) []
      refine ⟨n, ?_⟩
      rw [hins, lookupPathIdx_cons f g gs base _ ts [] _ hsp]
      exact hn
    · obtain ⟨hdec, htf, hbf⟩ := splitAtFunc_some f ts b t a h
      have hins : insertPath (f :: g :: gs) ts
          = b ++ CallTree.node f (insertPath (g :: gs) t.children) :: a := by
        rw [insertPath, h]
      have hsp : splitAtFunc f
            (b ++ CallTree.node f (insertPath (g :: gs) t.children) :: a)
          = some (b, CallTree.node f (insertPath (g :: gs) t.children), a) :=
        splitAtFunc_recompose f b (CallTree.node f (insertPath (g :: gs) t.children))
          a hbf rfl
      obtain ⟨n, hn⟩ := ih g (base + sizeForest b + 1) t.children
      refine ⟨n, ?_⟩
      rw [hins, lookupPathIdx_cons f g gs base _ b a _ hsp]
      exact hn

theorem lookup_insert_preserve (q : List Nat) :
    ∀ p ts base n, lookupPathIdx q base ts = some n →
      ∃ m, lookupPathIdx q base (insertPath p ts) = some m := by
  induction q with
  | nil =>
    intro p ts base n h
    cases h
  | cons f fs ih =>
    intro p ts base n h
    rcases hsp : splitAtFunc f ts with _ | ⟨b, t, a⟩
    · rw [lookupPathIdx_eq_none f fs base ts hsp] at h
      cases h
    · obtain ⟨hdec, htf, hbf⟩ := splitAtFunc_some f ts b t a hsp
      cases p with
      | nil => exact ⟨n, h⟩
      | cons g gs =>
        by_cases hgf : g = f
        · subst hgf
          have hins : insertPath (g :: gs) ts
              = b ++ CallTree.node g (insertPath gs t.children) :: a := by
            rw [insertPath, hsp]
          have hsp2 : splitAtFunc g
                (b ++ CallTree.node g (insertPath gs t.children) :: a)
              = some (b, CallTree.node g (insertPath gs t.children), a) :=
            splitAtFunc_recompose g b (CallTree.node g (insertPath gs t.children))
              a hbf rfl
          cases fs with
          | nil =>
            refine ⟨base + sizeForest b, ?_⟩
            rw [hins, lookupPathIdx_last g base _ b a _ hsp2]
          | cons g2 gs2 =>
            rw [lookupPathIdx_cons g g2 gs2 base ts b a t hsp] at h
            obtain ⟨m, hm⟩ := ih gs t.children (base + sizeForest b + 1) n h
            refine ⟨m, ?_⟩
            rw [hins, lookupPathIdx_cons g g2 gs2 base _ b a _ hsp2]
            exact hm
        · rcases hg : splitAtFunc g ts with _ | ⟨b', u, a'⟩
          · have hins : insertPath (g :: gs) ts
                = ts ++ [CallTree.node g (insertPath gs [])] := by
              rw [insertPath, hg]
            have hsp2 : splitAtFunc f (ts ++ [CallTree.node g (insertPath gs [])])
                = some (b, t, a ++ [CallTree.node g (insertPath gs [])]) :=
              splitAtFunc_append_left f ts _ b t a hsp
            cases fs with
            | nil =>
              refine ⟨base + sizeForest b, ?_⟩
              rw [hins, lookupPathIdx_last f base _ b _ t hsp2]
            | cons g2 gs2 =>
              rw [lookupPathIdx_cons f g2 gs2 base ts b a t hsp] at h
              refine ⟨n, ?_⟩
              rw [hins, lookupPathIdx_cons f g2 gs2 base _ b _ t hsp2]
              exact h
          · obtain ⟨hdec', hgf', hbf'⟩ := splitAtFunc_some g ts b' u a' hg
            have hins : insertPath (g :: gs) ts
                = b' ++ CallTree.node g (insertPath gs u.children) :: a' := by
              rw [insertPath, hg]
            rcases hfb : splitAtFunc f b' with _ | ⟨b1, t1, a1⟩
            · have huf : ¬ u.func = f := by
                rw [hgf']
                exact hgf
              have e1 : splitAtFunc f (b' ++ u :: a')
                  = (splitAtFunc f (u :: a')).map
                      (fun bta => (b' ++ bta.1, bta.2.1, bta.2.2)) :=
                splitAtFunc_append_right f b' (u :: a') hfb
              have e2 : splitAtFunc f (u :: a')
                  = (splitAtFunc f a').map
                      (fun bta => (u :: bta.1, bta.2.1, bta.2.2)) := by
                rw [splitAtFunc, if_neg huf]
              rcases hfa : splitAtFunc f a' with _ | ⟨b2, t2, a2⟩
              · have hcon : splitAtFunc f ts = none := by
                  rw [hdec', e1, e2, hfa]
                  rfl
                rw [hcon] at hsp
                cases hsp
              · have hspT : splitAtFunc f ts = some (b' ++ u :: b2, t2, a2) := by
                  rw [hdec', e1, e2, hfa]
                  rfl
                have e1' : splitAtFunc f
                      (b' ++ CallTree.node g (insertPath gs u.children) :: a')
                    = (splitAtFunc f
                        (CallTree.node g (insertPath gs u.children) :: a')).map
                        (fun bta => (b' ++ bta.1, bta.2.1, bta.2.2)) :=
                  splitAtFunc_append_right f b' _ hfb
                have e2' : splitAtFunc f
                      (CallTree.node g (insertPath gs u.children) :: a')
                    = (splitAtFunc f a').map
                        (fun bta => (CallTree.node g (insertPath gs u.children)
                            :: bta.1, bta.2.1, bta.2.2)) := by
                  rw [splitAtFunc, if_neg (show
                    ¬ (CallTree.node g (insertPath gs u.children)).func = f from hgf)]
                have hspR : splitAtFunc f
                      (b' ++ CallTree.node g (insertPath gs u.children) :: a')
                    = some (b' ++ CallTree.node g (insertPath gs u.children) :: b2,
                        t2, a2) := by
                  rw [e1', e2', hfa]
                  rfl
                cases fs with
                | nil =>
                  refine ⟨base + sizeForest
                    (b' ++ CallTree.node g (insertPath gs u.children) :: b2), ?_⟩
                  rw [hins, lookupPathIdx_last f base _ _ a2 t2 hspR]
                | cons g2 gs2 =>
                  rw [lookupPathIdx_cons f g2 gs2 base ts _ a2 t2 hspT] at h
                  obtain ⟨m, hm⟩ := lookup_some_base (g2 :: gs2)
                    (base + sizeForest (b' ++ u :: b2) + 1)
                    (base + sizeForest
                      (b' ++ CallTree.node g (insertPath gs u.children) :: b2) + 1)
                    n t2.children h
                  refine ⟨m, ?_⟩
                  rw [hins, lookupPathIdx_cons f g2 gs2 base _ _ a2 t2 hspR]
                  exact hm
            · have hsplit_l : splitAtFunc f ts = some (b1, t1, a1 ++ u :: a') := by
                rw [hdec']
                exact splitAtFunc_append_left f b' (u :: a') b1 t1 a1 hfb
              have hspR : splitAtFunc f
                    (b' ++ CallTree.node g (insertPath gs u.children) :: a')
                  = some (b1, t1,
                      a1 ++ CallTree.node g (insertPath gs u.children) :: a') :=
                splitAtFunc_append_left f b'
                  (CallTree.node g (insertPath gs u.children) :: a') b1 t1 a1 hfb
              cases fs with
              | nil =>
                refine ⟨base + sizeForest b1, ?_⟩
                rw [hins, lookupPathIdx_last f base _ b1 _ t1 hspR]
              | cons g2 gs2 =>
                rw [lookupPathIdx_cons f g2 gs2 base ts b1 _ t1 hsplit_l] at h
                refine ⟨n, ?_⟩
                rw [hins, lookupPathIdx_cons f g2 gs2 base _ b1 _ t1 hspR]
                exact h

theorem lookup_foldl_preserve {α : Type} (pathOf : α → List Nat) (l : List α) :
    ∀ ts q base n, lookupPathIdx q base ts = some n →
      ∃ m, lookupPathIdx q base
        (l.foldl (fun acc y => insertPath (pathOf y) acc) ts) = some m := by
  induction l with
  | nil =>
    intro ts q base n h
    exact ⟨n, h⟩
  | cons y l ih =>
    intro ts q base n h
    rw [List.foldl_cons]
    obtain ⟨m, hm⟩ := lookup_insert_preserve q (pathOf y) ts base n h
    exact ih _ q base m hm

theorem lookup_foldl_insert {α : Type} (pathOf : α → List Nat) (l : List α) :
    ∀ ts x, x ∈ l → (∃ f fs, pathOf x = f :: fs) →
      ∃ n, lookupPathIdx (pathOf x) 0
        (l.foldl (fun acc y => insertPath (pathOf y) acc) ts) = some n := by
  induction l with
  | nil =>
    intro ts x hx _
    cases hx
  | cons y l ih =>
    intro ts x hx hne
    obtain ⟨f, fs, hp⟩ := hne
    rw [List.foldl_cons]
    rcases List.mem_cons.mp hx with rfl | hx'
    · obtain ⟨n, hn⟩ : ∃ n,
          lookupPathIdx (pathOf x) 0 (insertPath (pathOf x) ts) = some n := by
        rw [hp]
        exact lookup_insert_self fs f 0 ts
      exact lookup_foldl_preserve pathOf l (insertPath (pathOf x) ts) (pathOf x) 0 n hn
    · exact ih _ x hx' ⟨f, fs, hp⟩

theorem treeDedup_children (t : CallTree) (h : treeDedup t = true) :
    forestDedup t.children = true := by
  cases t with
  | node f cs => exact h

theorem forestDedup_cons (t : CallTree) (ts : List CallTree)
    (h : forestDedup (t :: ts) = true) :
    treeDedup t = true ∧ forestDedup ts = true ∧ ∀ u ∈ ts, u.func ≠ t.func := by
  rw [forestDedup] at h
  simp only [Bool.and_eq_true, List.all_eq_true] at h
  obtain ⟨⟨h1, h2⟩, h3⟩ := h
  refine ⟨h1, h2, fun u hu => ?_⟩
  simpa using h3 u hu

theorem forestDedup_mem (l : List CallTree) :
    forestDedup l = true → ∀ t ∈ l, treeDedup t = true := by
  induction l with
  | nil =>
    intro _ t ht
    cases ht
  | cons x l ih =>
    intro h t ht
    obtain ⟨h1, h2, _⟩ := forestDedup_cons x l h
    rcases List.mem_cons.mp ht with rfl | ht'
    · exact h1
    · exact ih h2 t ht'

theorem forestDedup_append_one (v : CallTree) (ts : List CallTree) :
    forestDedup ts = true → treeDedup v = true → (∀ u ∈ ts, u.func ≠ v.func) →
      forestDedup (ts ++ [v]) = true := by
  induction ts with
  | nil =>
    intro _ hv _
    rw [List.nil_append]
    simp [forestDedup, hv]
  | cons t ts ih =>
    intro hded hv hne
    rw [List.cons_append, forestDedup]
    rw [forestDedup] at hded
    simp only [Bool.and_eq_true, List.all_eq_true] at hded ⊢
    obtain ⟨⟨h1, h2⟩, h3⟩ := hded
    refine ⟨⟨h1, ih h2 hv fun u hu => hne u (List.mem_cons_of_mem t hu)⟩, ?_⟩
    intro u hu
    rcases List.mem_append.mp hu with hu' | hu'
    · exact h3 u hu'
    · have huv : u = v := by simpa using hu'
      subst huv
      simp only [bne_iff_ne, ne_eq]
      exact fun hc => hne t (List.mem_cons_self t ts) hc.symm

theorem forestDedup_replace (v t : CallTree) (hfv : v.func = t.func) :
    ∀ b a, forestDedup (b ++ t :: a) = true → treeDedup v = true →
      forestDedup (b ++ v :: a) = true := by
  intro b
  induction b with
  | nil =>
    intro a hded hv
    rw [List.nil_append] at hded ⊢
    rw [forestDedup] at hded ⊢
    simp only [Bool.and_eq_true, List.all_eq_true] at hded ⊢
    obtain ⟨⟨_, h2⟩, h3⟩ := hded
    refine ⟨⟨hv, h2⟩, ?_⟩
    intro u hu
    have h4 := h3 u hu
    simp only [bne_iff_ne, ne_eq] at h4 ⊢
    rw [hfv]
    exact h4
  | cons x b ih =>
    intro a hded hv
    rw [List.cons_append] at hded ⊢
    rw [forestDedup] at hded ⊢
    simp only [Bool.and_eq_true, List.all_eq_true] at hded ⊢
    obtain ⟨⟨h1, h2⟩, h3⟩ := hded
    refine ⟨⟨h1, ih a h2 hv⟩, ?_⟩
    intro u hu
    rcases List.mem_append.mp hu with hu' | hu'
    · exact h3 u (List.mem_append.mpr (Or.inl hu'))
    · rcases List.mem_cons.mp hu' with rfl | hu''
      · have ht := h3 t (List.mem_append.mpr (Or.inr (List.mem_cons_self t a)))
        simp only [bne_iff_ne, ne_eq] at ht ⊢
        rw [hfv]
        exact ht
      · exact h3 u (List.mem_append.mpr (Or.inr (List.mem_cons_of_mem t hu'')))

theorem insertPath_dedup (p : List Nat) :
    ∀ ts, forestDedup ts = true → forestDedup (insertPath p ts) = true := by
  induction p with
  | nil =>
    intro ts h
    exact h
  | cons f fs ih =>
    intro ts hded
    rcases hsp : splitAtFunc f ts with _ | ⟨b, t, a⟩
    · have hins : insertPath (f :: fs) ts
          = ts ++ [CallTree.node f (insertPath fs [])] := by
        rw [insertPath, hsp]
      rw [hins]
      refine forestDedup_append_one _ ts hded ?_ ?_
      · show forestDedup (insertPath fs []) = true
        exact ih [] rfl
      · intro u hu
        exact (splitAtFunc_none f ts).mp hsp u hu
    · obtain ⟨hdec, htf, hbf⟩ := splitAtFunc_some f ts b t a hsp
      have hins : insertPath (f :: fs) ts
          = b ++ CallTree.node f (insertPath fs t.children) :: a := by
        rw [insertPath, hsp]
      rw [hins]
      rw [hdec] at hded
      refine forestDedup_replace (CallTree.node f (insertPath fs t.children)) t
        ?_ b a hded ?_
      · show f = t.func
        exact htf.symm
      · show forestDedup (insertPath fs t.children) = true
        refine ih t.children ?_
        have hmem : t ∈ b ++ t :: a :=
          List.mem_append.mpr (Or.inr (List.mem_cons_self t a))
        exact treeDedup_children t (forestDedup_mem (b ++ t :: a) hded t hmem)

theorem foldl_insert_dedup {α : Type} (pathOf : α → List Nat) (l : List α) :
    ∀ ts, forestDedup ts = true →
      forestDedup (l.foldl (fun acc y => insertPath (pathOf y) acc) ts) = true := by
  induction l with
  | nil =>
    intro ts h
    exact h
  | cons y l ih =>
    intro ts h
    rw [List.foldl_cons]
    exact ih _ (insertPath_dedup (pathOf y) ts h)

theorem buildCallNodeForest_dedup (st : StackTable) (ft : FrameTable) :
    forestDedup (buildCallNodeForest st ft) = true := by
  rw [buildCallNodeForest]
  exact foldl_insert_dedup (stackFuncPath st ft) (List.range st.frame.length) [] rfl

theorem forestPathTo_decomp (b : List CallTree) :
    ∀ t a r, r < t.size →
      forestPathTo (b ++ t :: a) (sizeForest b + r) = treePathTo t r := by
  induction b with
  | nil =>
    intro t a r hr
    rw [List.nil_append]
    have hz : sizeForest ([] : List CallTree) + r = r := by
      rw [sizeForest]
      omega
    rw [hz, forestPathTo, if_pos hr]
  | cons x b ih =>
    intro t a r hr
    rw [List.cons_append]
    have hk : sizeForest (x :: b) + r = x.size + (sizeForest b + r) := by
      rw [sizeForest]
      omega
    rw [hk, forestPathTo, if_neg (by omega)]
    have h2 : x.size + (sizeForest b + r) - x.size = sizeForest b + r := by omega
    rw [h2]
    exact ih t a r hr

theorem forestPathTo_head (ts : List CallTree) :
    ∀ k u, forestNodeAt ts k = some u →
      ∃ t' ∈ ts, ∃ rest, forestPathTo ts k = t'.func :: rest := by
  induction ts with
  | nil =>
    intro k u h
    cases h
  | cons t ts ih =>
    intro k u h
    rw [forestNodeAt] at h
    by_cases hk : k < t.size
    · rw [if_pos hk] at h
      refine ⟨t, List.mem_cons_self t ts, ?_⟩
      rw [forestPathTo, if_pos hk]
      cases t with
      | node f cs =>
        cases k with
        | zero => exact ⟨[], rfl⟩
        | succ m => exact ⟨forestPathTo cs m, rfl⟩
    · rw [if_neg hk] at h
      obtain ⟨t', ht', rest, hrest⟩ := ih (k - t.size) u h
      refine ⟨t', List.mem_cons_of_mem t ht', rest, ?_⟩
      rw [forestPathTo, if_neg hk, hrest]

theorem lookupPathIdx_shift (t : CallTree) (f : Nat) (fs : List Nat)
    (ts : List CallTree) (base : Nat) (h : ¬ t.func = f) :
    lookupPathIdx (f :: fs) base (t :: ts)
      = lookupPathIdx (f :: fs) (base + t.size) ts := by
  rcases hsp : splitAtFunc f ts with _ | ⟨b, u, a⟩
  · have h1 : splitAtFunc f (t :: ts) = none := by
      rw [splitAtFunc, if_neg h, hsp]
      rfl
    rw [lookupPathIdx_eq_none f fs base _ h1, lookupPathIdx_eq_none f fs _ ts hsp]
  · have h1 : splitAtFunc f (t :: ts) = some (t :: b, u, a) := by
      rw [splitAtFunc, if_neg h, hsp]
      rfl
    cases fs with
    | nil =>
      rw [lookupPathIdx_last f base _ (t :: b) a u h1,
        lookupPathIdx_last f (base + t.size) ts b a u hsp]
      have hsz : sizeForest (t :: b) = t.size + sizeForest b := by
        rw [sizeForest]
      rw [hsz]
      exact congrArg some (by omega)
    | cons g gs =>
      rw [lookupPathIdx_cons f g gs base _ (t :: b) a u h1,
        lookupPathIdx_cons f g gs (base + t.size) ts b a u hsp]
      have hsz : sizeForest (t :: b) = t.size + sizeForest b := by
        rw [sizeForest]
      rw [hsz]
      have he : base + (t.size + sizeForest b) + 1
          = base + t.size + sizeForest b + 1 := by omega
      rw [he]

theorem lookupPathIdx_correct (p : List Nat) :
    ∀ base ts n, lookupPathIdx p base ts = some n →
      base ≤ n ∧ n - base < sizeForest ts ∧ forestPathTo ts (n - base) = p := by
  induction p with
  | nil =>
    intro base ts n h
    cases h
  | cons f fs ih =>
    intro base ts n h
    rcases hsp : splitAtFunc f ts with _ | ⟨b, t, a⟩
    · rw [lookupPathIdx_eq_none f fs base ts hsp] at h
      cases h
    · obtain ⟨hdec, htf, hbf⟩ := splitAtFunc_some f ts b t a hsp
      cases fs with
      | nil =>
        rw [lookupPathIdx_last f base ts b a t hsp] at h
        have hn := Option.some.inj h
        refine ⟨by omega, ?_, ?_⟩
        · rw [hdec, sizeForest_append, sizeForest]
          have := t.size_pos
          omega
        · rw [hdec]
          have hnb : n - base = sizeForest b + 0 := by omega
          rw [hnb, forestPathTo_decomp b t a 0 t.size_pos]
          cases t with
          | node g cs =>
            show [g] = [f]
            rw [show g = f from htf]
      | cons g gs =>
        rw [lookupPathIdx_cons f g gs base ts b a t hsp] at h
        obtain ⟨h1, h2, h3⟩ := ih (base + sizeForest b + 1) t.children n h
        have hts := t.size_eq
        refine ⟨by omega, ?_, ?_⟩
        · rw [hdec, sizeForest_append, sizeForest]
          omega
        · rw [hdec]
          have hnb : n - base
              = sizeForest b + (n - (base + sizeForest b + 1) + 1) := by omega
          rw [hnb]
          have hlt2 : n - (base + sizeForest b + 1) + 1 < t.size := by omega
          rw [forestPathTo_decomp b t a _ hlt2]
          cases t with
          | node g2 cs =>
            have h3' : forestPathTo cs (n - (base + sizeForest b + 1))
                = g :: gs := h3
            show g2 :: forestPathTo cs (n - (base + sizeForest b + 1)) = f :: g :: gs
            rw [show g2 = f from htf, h3']

theorem lookup_forestPathTo (n : Nat) :
    ∀ ts, sizeForest ts = n → forestDedup ts = true →
      ∀ k u base, forestNodeAt ts k = some u →
        lookupPathIdx (forestPathTo ts k) base ts = some (base + k) := by
  induction n using Nat.strong_induction_on with
  | _ n ih =>
    intro ts hn hded k u base hu
    cases ts with
    | nil => cases hu
    | cons t ts =>
      obtain ⟨hdt, hdts, hdisj⟩ := forestDedup_cons t ts hded
      rw [forestNodeAt] at hu
      by_cases hk : k < t.size
      · rw [if_pos hk] at hu
        rw [forestPathTo, if_pos hk]
        cases t with
        | node f cs =>
          cases k with
          | zero =>
            have h1 : splitAtFunc (CallTree.node f cs).func (CallTree.node f cs :: ts)
                = some ([], CallTree.node f cs, ts) := by
              rw [splitAtFunc, if_pos rfl]
            show lookupPathIdx ((CallTree.node f cs).func :: []) base
                (CallTree.node f cs :: ts) = some (base + 0)
            rw [lookupPathIdx_last _ base _ [] ts _ h1]
            rfl
          | succ m =>
            have hu' : forestNodeAt cs m = some u := hu
            obtain ⟨t', ht', rest, hrest⟩ := forestPathTo_head cs m u hu'
            have h1 : splitAtFunc (CallTree.node f cs).func (CallTree.node f cs :: ts)
                = some ([], CallTree.node f cs, ts) := by
              rw [splitAtFunc, if_pos rfl]
            show lookupPathIdx ((CallTree.node f cs).func :: forestPathTo cs m) base
                (CallTree.node f cs :: ts) = some (base + (m + 1))
            rw [hrest, lookupPathIdx_cons _ t'.func rest base _ [] ts _ h1]
            show lookupPathIdx (t'.func :: rest) (base + 1) cs = some (base + (m + 1))
            rw [← hrest]
            have hlt : sizeForest cs < n := by
              rw [← hn, sizeForest, CallTree.size]
              omega
            have hdcs : forestDedup cs = true := hdt
            have hrec := ih (sizeForest cs) hlt cs rfl hdcs m u (base + 1) hu'
            rw [hrec]
            exact congrArg some (by omega)
      · rw [if_neg hk] at hu
        rw [forestPathTo, if_neg hk]
        obtain ⟨t', ht', rest, hrest⟩ := forestPathTo_head ts (k - t.size) u hu
        rw [hrest, lookupPathIdx_shift t t'.func rest ts base
          fun hc => hdisj t' ht' hc.symm]
        rw [← hrest]
        have hlt : sizeForest ts < n := by
          rw [← hn, sizeForest]
          have := t.size_pos
          omega
        have hrec := ih (sizeForest ts) hlt ts rfl hdts (k - t.size) u
          (base + t.size) hu
        rw [hrec]
        exact congrArg some (by omega)

theorem stackFuncPathGo_ne_nil (st : StackTable) (ft : FrameTable) (fuel s : Nat) :
    stackFuncPathGo st ft (fuel + 1) s ≠ [] := by
  rw [stackFuncPathGo]
  rcases hp : st.prefixIdx.getD s none with _ | p
  · intro hc
    have hc' : [ft.func.getD (st.frame.getD s 0) 0] = ([] : List Nat) := hc
    cases hc'
  · intro hc
    have hc' : stackFuncPathGo st ft fuel p
        ++ [ft.func.getD (st.frame.getD s 0) 0] = ([] : List Nat) := hc
    cases (List.append_eq_nil.mp hc').2

theorem stackFuncPath_ne_nil (st : StackTable) (ft : FrameTable) (s : Nat) :
    ∃ f fs, stackFuncPath st ft s = f :: fs := by
  rcases hx : stackFuncPath st ft s with _ | ⟨f, fs⟩
  · exact absurd hx (stackFuncPathGo_ne_nil st ft s s)
  · exact ⟨f, fs, rfl⟩

theorem getCallNodePathGo_fuel (rows : List CNRow)
    (hwf : ∀ j r, rows.get? j = some r → r.prefixIdx < (j : Int)) (m : Nat) :
    ∀ fuel, m < fuel →
      getCallNodePathGo rows fuel m = getCallNodePathGo rows (m + 1) m := by
  induction m using Nat.strong_induction_on with
  | _ m ih =>
    intro fuel hfuel
    cases fuel with
    | zero => omega
    | succ fuel =>
      rw [getCallNodePathGo, getCallNodePathGo]
      rcases hg : rows.get? m with _ | r
      · rfl
      · show (if r.prefixIdx < 0 then [r.func]
            else getCallNodePathGo rows fuel r.prefixIdx.toNat ++ [r.func])
          = (if r.prefixIdx < 0 then [r.func]
            else getCallNodePathGo rows m r.prefixIdx.toNat ++ [r.func])
        by_cases hneg : r.prefixIdx < 0
        · rw [if_pos hneg, if_pos hneg]
        · rw [if_neg hneg, if_neg hneg]
          congr 1
          have hp : r.prefixIdx.toNat < m := by
            have := hwf m r hg
            omega
          rw [ih _ hp fuel (by omega), ih _ hp m (by omega)]

theorem cn_path_eq (ts : List CallTree) :
    ∀ k rk, (callNodeTableOfForest ts).get? k = some rk →
      getCallNodePath (callNodeTableOfForest ts) k = forestPathTo ts k := by
  intro k
  induction k using Nat.strong_induction_on with
  | _ k ih =>
    intro rk hrk
    obtain ⟨u, hu, hfunc, hpar, _, _⟩ := callNodeTableOfForest_get ts k rk hrk
    have hklen : k < sizeForest ts := by
      have h3 := forestNodeAt_size_le ts k u hu
      have h4 := u.size_pos
      omega
    have hspec := forestPathTo_spec ts k u hklen hu
    have hunfold : getCallNodePath (callNodeTableOfForest ts) k
        = if rk.prefixIdx < 0 then [rk.func]
          else getCallNodePathGo (callNodeTableOfForest ts) k rk.prefixIdx.toNat
            ++ [rk.func] := by
      rw [getCallNodePath, getCallNodePathGo, hrk]
    rcases hP : forestParentOf ts k with _ | q
    · rw [hP] at hpar hspec
      rw [renderParent] at hpar
      rw [hunfold, if_pos (by rw [hpar]; omega), hspec, hfunc]
      rfl
    · rw [hP] at hpar hspec
      rw [renderParent] at hpar
      have hq0 : 0 + q = q := by omega
      rw [hq0] at hpar
      obtain ⟨tq, tk, htq, htk, hqlt, hsz⟩ := forestParentOf_spec ts k q hklen hP
      obtain ⟨rq, hrq⟩ := callNodeTable_isSome ts q
        (by rw [callNodeTableOfForest_length]; omega)
      rw [hunfold, if_neg (by rw [hpar]; omega)]
      have htn : rk.prefixIdx.toNat = q := by
        rw [hpar, Int.toNat_natCast]
      rw [htn, getCallNodePathGo_fuel _ (cn_hwf ts) q k hqlt]
      have hihq := ih q hqlt rq hrq
      rw [getCallNodePath] at hihq
      rw [hihq, hfunc, hspec]

theorem cn_lookup_own_path (st : StackTable) (ft : FrameTable) (k : Nat) (rk : CNRow)
    (hk : (callNodeTable st ft).get? k = some rk) :
    lookupPathIdx (getCallNodePath (callNodeTable st ft) k) 0
      (buildCallNodeForest st ft) = some k := by
  have hk' : (callNodeTableOfForest (buildCallNodeForest st ft)).get? k
      = some rk := hk
  obtain ⟨u, hu, _, _, _, _⟩ :=
    callNodeTableOfForest_get (buildCallNodeForest st ft) k rk hk'
  have hpath : getCallNodePath (callNodeTable st ft) k
      = forestPathTo (buildCallNodeForest st ft) k :=
    cn_path_eq (buildCallNodeForest st ft) k rk hk'
  rw [hpath]
  have hlk := lookup_forestPathTo (sizeForest (buildCallNodeForest st ft))
    (buildCallNodeForest st ft) rfl (buildCallNodeForest_dedup st ft) k u 0 hu
  rw [hlk]
  exact congrArg some (Nat.zero_add k)

theorem cn_path_inj (st : StackTable) (ft : FrameTable) (k1 k2 : Nat)
    (rk1 rk2 : CNRow)
    (h1 : (callNodeTable st ft).get? k1 = some rk1)
    (h2 : (callNodeTable st ft).get? k2 = some rk2)
    (hpath : getCallNodePath (callNodeTable st ft) k1
      = getCallNodePath (callNodeTable st ft) k2) : k1 = k2 := by
  have e1 := cn_lookup_own_path st ft k1 rk1 h1
  have e2 := cn_lookup_own_path st ft k2 rk2 h2
  rw [hpath] at e1
  rw [e2] at e1
  exact (Option.some.inj e1).symm

/-! ## Claims C2 and C5 -/

/-- C2: the Call-Node Reducer deduplicates by function chain.  Any two stack
rows with identical root-to-leaf function chains map to the same call-node
index; every stack row maps to a genuine (non-negative) call-node index;
every call node's own function path resolves back to exactly that node;
distinct call nodes have distinct function paths (the CallNodeTable contains
exactly one node per root-to-node function sequence); and no two call nodes
share both prefix and func (no two children of the same parent share a
func). -/
theorem callnode_dedup_spec (st : StackTable) (ft : FrameTable) :
    (∀ s1 s2 : Nat, stackFuncPath st ft s1 = stackFuncPath st ft s2 →
        stackIndexToCallNodeIndex st ft s1 = stackIndexToCallNodeIndex st ft s2)
    ∧ (∀ s : Nat, s < st.frame.length →
        ∃ n : Nat, stackIndexToCallNodeIndex st ft s = (n : Int))
    ∧ (∀ k rk, (callNodeTable st ft).get? k = some rk →
        lookupPathIdx (getCallNodePath (callNodeTable st ft) k) 0
          (buildCallNodeForest st ft) = some k)
    ∧ (∀ k1 k2 rk1 rk2, (callNodeTable st ft).get? k1 = some rk1 →
        (callNodeTable st ft).get? k2 = some rk2 →
        getCallNodePath (callNodeTable st ft) k1
          = getCallNodePath (callNodeTable st ft) k2 → k1 = k2)
    ∧ (∀ k1 k2 rk1 rk2, (callNodeTable st ft).get? k1 = some rk1 →
        (callNodeTable st ft).get? k2 = some rk2 →
        rk1.prefixIdx = rk2.prefixIdx → rk1.func = rk2.func → k1 = k2) := by
  refine ⟨?_, ?_, ?_, ?_, ?_⟩
  · intro s1 s2 h
    unfold stackIndexToCallNodeIndex
    rw [h]
  · intro s hs
    obtain ⟨n, hn⟩ := lookup_foldl_insert (stackFuncPath st ft)
      (List.range st.frame.length) [] s (List.mem_range.mpr hs)
      (stackFuncPath_ne_nil st ft s)
    have hb : lookupPathIdx (stackFuncPath st ft s) 0 (buildCallNodeForest st ft)
        = some n := hn
    refine ⟨n, ?_⟩
    rw [stackIndexToCallNodeIndex, hb]
  · intro k rk hk
    exact cn_lookup_own_path st ft k rk hk
  · intro k1 k2 rk1 rk2 h1 h2 hp
    exact cn_path_inj st ft k1 k2 rk1 rk2 h1 h2 hp
  · intro k1 k2 rk1 rk2 h1 h2 hpre hfun
    have h1' : (callNodeTableOfForest (buildCallNodeForest st ft)).get? k1
        = some rk1 := h1
    have h2' : (callNodeTableOfForest (buildCallNodeForest st ft)).get? k2
        = some rk2 := h2
    have hwf := cn_hwf (buildCallNodeForest st ft)
    have hu1 : getCallNodePath (callNodeTable st ft) k1
        = if rk1.prefixIdx < 0 then [rk1.func]
          else getCallNodePathGo (callNodeTable st ft) k1 rk1.prefixIdx.toNat
            ++ [rk1.func] := by
      rw [getCallNodePath, getCallNodePathGo, h1]
    have hu2 : getCallNodePath (callNodeTable st ft) k2
        = if rk2.prefixIdx < 0 then [rk2.func]
          else getCallNodePathGo (callNodeTable st ft) k2 rk2.prefixIdx.toNat
            ++ [rk2.func] := by
      rw [getCallNodePath, getCallNodePathGo, h2]
    have hpatheq : getCallNodePath (callNodeTable st ft) k1
        = getCallNodePath (callNodeTable st ft) k2 := by
      rw [hu1, hu2, hpre, hfun]
      by_cases hneg : rk2.prefixIdx < 0
      · rw [if_pos hneg, if_pos hneg]
      · rw [if_neg hneg, if_neg hneg]
        congr 1
        have hp1 : rk2.prefixIdx.toNat < k1 := by
          have := hwf k1 rk1 h1'
          rw [hpre] at this
          omega
        have hp2 : rk2.prefixIdx.toNat < k2 := by
          have := hwf k2 rk2 h2'
          omega
        rw [getCallNodePathGo_fuel (callNodeTable st ft) hwf rk2.prefixIdx.toNat
          k1 hp1, getCallNodePathGo_fuel (callNodeTable st ft) hwf
          rk2.prefixIdx.toNat k2 hp2]
    exact cn_path_inj st ft k1 k2 rk1 rk2 h1 h2 hpatheq

/-- Concrete witness for C2 at the seven-stack fixture of the unit tests:
stacks 3 and 5 carry the same function chain and map to the same call-node
index, and stack 3 maps to a genuine (non-negative) index. -/
theorem callnode_dedup_witness :
    stackIndexToCallNodeIndex (StackTable.mk [0, 1, 2, 3, 4, 5, 6]
          [none, some 0, some 1, some 2, some 3, some 2, some 5])
        (FrameTable.mk [0, 1, 2, 3, 4, 3, 5]) 3
      = stackIndexToCallNodeIndex (StackTable.mk [0, 1, 2, 3, 4, 5, 6]
          [none, some 0, some 1, some 2, some 3, some 2, some 5])
        (FrameTable.mk [0, 1, 2, 3, 4, 3, 5]) 5
    ∧ ∃ n : Nat, stackIndexToCallNodeIndex (StackTable.mk [0, 1, 2, 3, 4, 5, 6]
          [none, some 0, some 1, some 2, some 3, some 2, some 5])
        (FrameTable.mk [0, 1, 2, 3, 4, 3, 5]) 3 = (n : Int) :=
  ⟨(callnode_dedup_spec (StackTable.mk [0, 1, 2, 3, 4, 5, 6]
        [none, some 0, some 1, some 2, some 3, some 2, some 5])
      (FrameTable.mk [0, 1, 2, 3, 4, 3, 5])).1 3 5 (by decide),
    (callnode_dedup_spec (StackTable.mk [0, 1, 2, 3, 4, 5, 6]
        [none, some 0, some 1, some 2, some 3, some 2, some 5])
      (FrameTable.mk [0, 1, 2, 3, 4, 3, 5])).2.1 3 (by decide)⟩

/-- C5: the Inversion Engine materializes inverted call nodes only for self
stacks.  The stack-to-inverted-call-node map has entry -1 for every stack
that is not referenced as a self stack; every self stack maps to a genuine
inverted node whose function path is exactly the reverse of the stack's
forward function chain, so reversing the inverted path reconstructs the
original root-to-leaf function sequence. -/
theorem inversion_spec (st : StackTable) (ft : FrameTable)
    (selfStacks : List Nat) :
    (∀ s, s ∉ selfStacks →
        invertedStackIndexToCallNodeIndex st ft selfStacks s = -1)
    ∧ (∀ s, s ∈ selfStacks →
        ∃ n : Nat, invertedStackIndexToCallNodeIndex st ft selfStacks s = (n : Int)
          ∧ getCallNodePath (invertedCallNodeTable st ft selfStacks) n
              = (stackFuncPath st ft s).reverse
          ∧ (getCallNodePath (invertedCallNodeTable st ft selfStacks) n).reverse
              = stackFuncPath st ft s) := by
  constructor
  · intro s hs
    rw [invertedStackIndexToCallNodeIndex, if_neg hs]
  · intro s hs
    obtain ⟨f, fs, hp⟩ := stackFuncPath_ne_nil st ft s
    have hrevne : (stackFuncPath st ft s).reverse ≠ [] := by
      intro hc
      have hnil := List.reverse_eq_nil_iff.mp hc
      rw [hp] at hnil
      cases hnil
    obtain ⟨f2, fs2, hrev⟩ := List.exists_cons_of_ne_nil hrevne
    obtain ⟨n, hn⟩ := lookup_foldl_insert
      (fun s' => (stackFuncPath st ft s').reverse) selfStacks [] s hs
      ⟨f2, fs2, hrev⟩
    have hn' : lookupPathIdx (stackFuncPath st ft s).reverse 0
        (buildInvertedForest st ft selfStacks) = some n := hn
    obtain ⟨hb0, hlt, hpath⟩ := lookupPathIdx_correct
      ((stackFuncPath st ft s).reverse) 0
      (buildInvertedForest st ft selfStacks) n hn'
    have hn0 : n - 0 = n := by omega
    rw [hn0] at hlt hpath
    obtain ⟨rn, hrn⟩ := callNodeTable_isSome (buildInvertedForest st ft selfStacks)
      n (by rw [callNodeTableOfForest_length]; exact hlt)
    have hP : getCallNodePath (invertedCallNodeTable st ft selfStacks) n
        = (stackFuncPath st ft s).reverse := by
      have hcp : getCallNodePath (invertedCallNodeTable st ft selfStacks) n
          = forestPathTo (buildInvertedForest st ft selfStacks) n :=
        cn_path_eq (buildInvertedForest st ft selfStacks) n rn hrn
      rw [hcp, hpath]
    refine ⟨n, ?_, hP, ?_⟩
    · rw [invertedStackIndexToCallNodeIndex, if_pos hs, hn']
    · rw [hP, List.reverse_reverse]

/-- Concrete witness for C5 at the three-stack thread A, A→B, A→C with self
stacks 1 and 2: the prefix-only stack 0 maps to -1, and self stack 1 maps to
a genuine inverted node whose path is the reverse of its forward chain. -/
theorem inversion_witness :
    invertedStackIndexToCallNodeIndex (StackTable.mk [0, 1, 2]
        [none, some 0, some 0]) (FrameTable.mk [0, 1, 2]) [1, 2] 0 = -1
    ∧ ∃ n : Nat,
        invertedStackIndexToCallNodeIndex (StackTable.mk [0, 1, 2]
            [none, some 0, some 0]) (FrameTable.mk [0, 1, 2]) [1, 2] 1 = (n : Int)
        ∧ getCallNodePath (invertedCallNodeTable (StackTable.mk [0, 1, 2]
              [none, some 0, some 0]) (FrameTable.mk [0, 1, 2]) [1, 2]) n
            = (stackFuncPath (StackTable.mk [0, 1, 2] [none, some 0, some 0])
                (FrameTable.mk [0, 1, 2]) 1).reverse
        ∧ (getCallNodePath (invertedCallNodeTable (StackTable.mk [0, 1, 2]
              [none, some 0, some 0]) (FrameTable.mk [0, 1, 2]) [1, 2]) n).reverse
            = stackFuncPath (StackTable.mk [0, 1, 2] [none, some 0, some 0])
                (FrameTable.mk [0, 1, 2]) 1 :=
  ⟨(inversion_spec (StackTable.mk [0, 1, 2] [none, some 0, some 0])
      (FrameTable.mk [0, 1, 2]) [1, 2]).1 0 (by decide),
    (inversion_spec (StackTable.mk [0, 1, 2] [none, some 0, some 0])
      (FrameTable.mk [0, 1, 2]) [1, 2]).2 1 (by decide)⟩

/-! ## Claim C1: CallNodeTable ordering invariants -/

/-- C1 counterexample: the monotonicity clause fails on the code.  For the
thread whose three stacks are A, A→B and A→C, the engine's CallNodeTable has
subtreeRangeEnd column [3, 2, 3]: index 0 precedes index 1 but its
subtreeRangeEnd 3 exceeds index 1's subtreeRangeEnd 2, so subtreeRangeEnd is
not monotonically non-decreasing across indices. -/
theorem callnode_monotone_counterexample :
    ((callNodeTable (StackTable.mk [0, 1, 2] [none, some 0, some 0])
        (FrameTable.mk [0, 1, 2])).map CNRow.subtreeRangeEnd) = [3, 2, 3]
    ∧ (0 : Nat) < 1 ∧ ¬((3 : Nat) ≤ 2) := by
  decide

/-- C1 (amended): for every CallNodeTable produced by the engine, the rows
are in depth-first pre-order: for every node at index k, the half-open range
[k, subtreeRangeEnd k) contains exactly node k and all of its descendants
(the rows whose prefix chain passes through k); for every node, the
nextSibling column is genuine (it is the first later row with the same
prefix, and -1 means no later row has the same prefix), subtreeRangeEnd
equals the next-sibling index when the node has a next sibling, and in
general subtreeRangeEnd equals the subtree end of the closest ancestor that
has a next sibling (or the table length when there is none).  The
monotonicity clause of the original claim is dropped: subtreeRangeEnd is not
monotonically non-decreasing across indices (see the counterexample). -/
theorem callnode_table_spec (st : StackTable) (ft : FrameTable) :
    (∀ k m rk, (callNodeTable st ft).get? k = some rk →
        m < (callNodeTable st ft).length →
        ((k ≤ m ∧ m < rk.subtreeRangeEnd)
          ↔ (m = k ∨ k ∈ ancestors (callNodeTable st ft) m)))
    ∧ (∀ k rk, (callNodeTable st ft).get? k = some rk →
        ((∃ s : Nat, rk.nextSibling = (s : Int) ∧ rk.subtreeRangeEnd = s
            ∧ k < s
            ∧ (∃ rs, (callNodeTable st ft).get? s = some rs
                ∧ rs.prefixIdx = rk.prefixIdx)
            ∧ ∀ m rm, (callNodeTable st ft).get? m = some rm → k < m → m < s →
                rm.prefixIdx ≠ rk.prefixIdx)
          ∨ (rk.nextSibling = -1
            ∧ ∀ m rm, (callNodeTable st ft).get? m = some rm → k < m →
                rm.prefixIdx ≠ rk.prefixIdx)))
    ∧ (∀ k rk, (callNodeTable st ft).get? k = some rk →
        rk.subtreeRangeEnd = closestAncestorEnd (callNodeTable st ft) (k + 1) k) := by
  refine ⟨?_, ?_, ?_⟩
  · intro k m rk hk hm
    constructor
    · rintro ⟨h1, h2⟩
      by_cases hmk : m = k
      · exact Or.inl hmk
      · exact Or.inr (cn_range_imp_ancestor _ k rk hk m hm (by omega) h2)
    · rintro (rfl | hmem)
      · exact ⟨le_rfl, (cn_bounds _ _ rk hk).1⟩
      · obtain ⟨rm, hrm⟩ := callNodeTable_isSome _ m hm
        obtain ⟨rk', hrk', h1, h2, h3⟩ := cn_ancestor_imp_range _ k m rm hrm hmem
        have hk2 : (callNodeTableOfForest (buildCallNodeForest st ft)).get? k
            = some rk := hk
        rw [hk2] at hrk'
        have heq := Option.some.inj hrk'
        subst heq
        exact ⟨by omega, h2⟩
  · intro k rk hk
    rcases cn_sibling_genuine _ k rk hk with ⟨s, hs, hks, hex, hbetween⟩ | ⟨hneg, hall⟩
    · refine Or.inl ⟨s, hs, ?_, hks, hex, hbetween⟩
      rcases cn_sibling _ k rk hk with ⟨s', rs', hs', _, hse', _⟩ | ⟨hneg', _⟩
      · rw [hs] at hs'
        have hss : s = s' := Int.natCast_inj.mp hs'
        omega
      · rw [hneg'] at hs
        omega
    · exact Or.inr ⟨hneg, hall⟩
  · intro k rk hk
    exact cn_end_eq_closestAncestorEnd _ k rk hk

/-- Concrete witness for the amended C1 at the three-stack thread: row 1
(A→B) has subtreeRangeEnd 2 equal to its next sibling's index, and its range
[1, 2) contains exactly itself. -/
theorem callnode_table_witness :
    ((callNodeTable (StackTable.mk [0, 1, 2] [none, some 0, some 0])
        (FrameTable.mk [0, 1, 2])).get? 1 = some ⟨1, 0, 2, 2⟩)
    ∧ ((1 : Nat) ≤ 1 ∧ (1 : Nat) < 2) := by
  refine ⟨by decide, ?_⟩
  have h := (callnode_table_spec (StackTable.mk [0, 1, 2] [none, some 0, some 0])
    (FrameTable.mk [0, 1, 2])).1 1 1 ⟨1, 0, 2, 2⟩ (by decide) (by decide)
  exact h.mpr (Or.inl rfl)

/-! ## Counter Normalizer lemmas and claim C6 -/

theorem cumulativeSums_length (acc : Int) (cs : List Int) :
    (cumulativeSums acc cs).length = cs.length := by
  induction cs generalizing acc with
  | nil => rfl
  | cons c cs ih => simp [cumulativeSums, ih]

theorem cumulativeSums_eq_map_range (acc : Int) (cs : List Int) :
    cumulativeSums acc cs =
      (List.range cs.length).map (fun i => acc + (cs.take (i + 1)).sum) := by
  induction cs generalizing acc with
  | nil => rfl
  | cons c cs ih =>
    simp only [cumulativeSums, List.length_cons, List.range_succ_eq_map, List.map_cons,
      List.map_map]
    congr 1
    · simp
    · rw [ih (acc + c)]
      refine List.map_congr_left fun i _ => ?_
      simp only [Function.comp_apply, List.take_succ_cons, List.sum_cons]
      ring

/-- C6: the Counter Normalizer returns the input unchanged when the relative
flag is not set, and the cumulative sums of the deltas when it is set (in
particular [0, 5, -2, 3] yields [0, 5, 3, 6]); the output always has the same
sample count and ordering as the input (element i of the output is determined
by elements 0..i of the input), and the operation is a pure function. -/
theorem counter_normalizer_spec :
    (∀ cs : List Int, normalizeCounterSamples false cs = cs)
    ∧ (∀ cs : List Int, normalizeCounterSamples true cs =
        (List.range cs.length).map (fun i => (cs.take (i + 1)).sum))
    ∧ (∀ (r : Bool) (cs : List Int),
        (normalizeCounterSamples r cs).length = cs.length)
    ∧ normalizeCounterSamples true [0, 5, -2, 3] = [0, 5, 3, 6] := by
  refine ⟨fun cs => rfl, fun cs => ?_, fun r cs => ?_, by decide⟩
  · rw [normalizeCounterSamples, if_pos rfl, cumulativeSums_eq_map_range]
    simp
  · cases r with
    | false => rfl
    | true =>
      rw [normalizeCounterSamples, if_pos rfl, cumulativeSums_length]

/-! ## String Interner lemmas and claim C7 -/

theorem lookupIndex_get (s : String) (l : List String) (i : Nat)
    (h : lookupIndex s l = some i) : l.get? i = some s := by
  induction l generalizing i with
  | nil => simp [lookupIndex] at h
  | cons t ts ih =>
    by_cases ht : t = s
    · simp only [lookupIndex, if_pos ht, Option.some.injEq] at h
      subst h
      simp [ht]
    · rw [lookupIndex, if_neg ht] at h
      rcases hl : lookupIndex s ts with _ | j
      · rw [hl] at h
        simp at h
      · rw [hl] at h
        simp only [Option.map_some', Option.some.injEq] at h
        subst h
        simpa using ih j hl

theorem lookupIndex_eq_none (s : String) (l : List String) :
    lookupIndex s l = none ↔ s ∉ l := by
  induction l with
  | nil => simp [lookupIndex]
  | cons t ts ih =>
    by_cases h : t = s
    · subst h
      simp [lookupIndex]
    · rw [lookupIndex, if_neg h]
      rcases hl : lookupIndex s ts with _ | j
      · have hnot : s ∉ ts := ih.mp hl
        simp only [Option.map_none', true_iff, List.mem_cons]
        rintro (rfl | hm)
        · exact h rfl
        · exact hnot hm
      · have hmem : s ∈ ts := List.get?_mem (lookupIndex_get s ts j hl)
        simp only [Option.map_some', List.mem_cons]
        constructor
        · intro hcon
          exact absurd hcon (by simp)
        · intro hn
          exact absurd (Or.inr hmem) hn

/-- C7: the String Interner keeps a bidirectional, stable mapping.
`getString (indexForString s) = s` always holds on the updated table;
`indexForString` returns the existing index (leaving the table untouched)
for a string already interned and the current table length (appending the
string) for a new one; interning never changes the index or value of a
previously interned string — the table only grows, by extension at the end. -/
theorem string_interner_spec (u : UniqueStringArray) (s : String) :
    (u.indexForString s).2.getString (u.indexForString s).1 = some s
    ∧ (s ∈ u.strings →
        (u.indexForString s).2 = u ∧ u.getString (u.indexForString s).1 = some s)
    ∧ (s ∉ u.strings →
        (u.indexForString s).1 = u.strings.length
        ∧ (u.indexForString s).2.strings = u.strings ++ [s])
    ∧ u.strings <+: (u.indexForString s).2.strings
    ∧ (∀ j, j < u.strings.length →
        (u.indexForString s).2.getString j = u.getString j) := by
  rw [UniqueStringArray.indexForString]
  rcases hl : lookupIndex s u.strings with _ | i
  · rw [lookupIndex_eq_none] at hl
    refine ⟨?_, fun hmem => absurd hmem hl, fun _ => ⟨rfl, rfl⟩, ⟨[s], rfl⟩, ?_⟩
    · simp [UniqueStringArray.getString]
    · intro j hj
      simp [UniqueStringArray.getString, List.get?_eq_getElem?,
        List.getElem?_append_left hj]
  · have hget := lookupIndex_get s u.strings i hl
    refine ⟨hget, fun _ => ⟨rfl, hget⟩, fun hmem => ?_, ⟨[], by simp⟩, fun j _ => rfl⟩
    exact absurd (List.get?_mem hget) hmem

/-- Concrete witness for C7, at the table from the unit test: interning the
new string "qux" appends it at index 3, and interning the existing string
"bar" returns index 1 without changing the table. -/
theorem string_interner_witness :
    ("qux" ∉ (UniqueStringArray.mk ["foo", "bar", "baz"]).strings)
    ∧ ((UniqueStringArray.mk ["foo", "bar", "baz"]).indexForString "qux").1 = 3
    ∧ ("bar" ∈ (UniqueStringArray.mk ["foo", "bar", "baz"]).strings)
    ∧ ((UniqueStringArray.mk ["foo", "bar", "baz"]).indexForString "bar").2
        = UniqueStringArray.mk ["foo", "bar", "baz"] := by
  refine ⟨by decide, ?_, by decide, ?_⟩
  · exact ((string_interner_spec ⟨["foo", "bar", "baz"]⟩ "qux").2.2.1 (by decide)).1
  · exact ((string_interner_spec ⟨["foo", "bar", "baz"]⟩ "bar").2.1 (by decide)).1

/-! ## Upgrade Pipeline lemmas and claim C3 -/

theorem upgradeLoop_version (steps : Nat → α → α) (n : Nat) (d : VersionedDoc α) :
    (upgradeLoop steps n d).version = d.version + n := by
  induction n generalizing d with
  | zero => rfl
  | succ n ih =>
    rw [upgradeLoop, ih]
    simp
    omega

theorem upgradeLoop_add (steps : Nat → α → α) (m n : Nat) (d : VersionedDoc α) :
    upgradeLoop steps (m + n) d = upgradeLoop steps n (upgradeLoop steps m d) := by
  induction m generalizing d with
  | zero =>
    rw [Nat.zero_add]
    rfl
  | succ m ih =>
    have h : m + 1 + n = (m + n) + 1 := by omega
    rw [h, upgradeLoop, upgradeLoop, ih]

/-- C3: for every input document at a version `v0 ≤ v ≤ current`, running the
Upgrade Pipeline succeeds and produces a document at the current version;
upgrading the version-`v` partial upgrade of a document yields the same output
as upgrading the document directly (so all historical serializations of the
same logical document upgrade to equal outputs); and once a document is at the
current version the pipeline returns it unchanged, making re-runs the
identity. -/
theorem upgrade_pipeline_spec (steps : Nat → α → α) (current v : Nat)
    (d : VersionedDoc α) (hdv : d.version ≤ v) (hvc : v ≤ current) :
    (∃ p, runUpgradePipeline steps current d = .ok ⟨current, p⟩)
    ∧ (∀ m, runUpgradePipeline steps v d = .ok m →
        runUpgradePipeline steps current m = runUpgradePipeline steps current d)
    ∧ (∀ e : VersionedDoc α, e.version = current →
        runUpgradePipeline steps current e = .ok e)
    ∧ (∀ d', runUpgradePipeline steps current d = .ok d' →
        runUpgradePipeline steps current d' = .ok d') := by
  have hok : ∀ e : VersionedDoc α, e.version ≤ current →
      runUpgradePipeline steps current e
        = .ok (upgradeLoop steps (current - e.version) e) := by
    intro e he
    rw [runUpgradePipeline, if_neg (by omega)]
  have hcur : ∀ e : VersionedDoc α, e.version = current →
      runUpgradePipeline steps current e = .ok e := by
    intro e he
    rw [hok e (le_of_eq he), he, Nat.sub_self]
    rfl
  refine ⟨⟨(upgradeLoop steps (current - d.version) d).payload, ?_⟩, ?_, hcur, ?_⟩
  · rw [hok d (le_trans hdv hvc)]
    congr 1
    cases hl2 : upgradeLoop steps (current - d.version) d with
    | mk ver p =>
      have hv := upgradeLoop_version steps (current - d.version) d
      rw [hl2] at hv
      have hv' : ver = d.version + (current - d.version) := hv
      congr 1
      omega
  · intro m hm
    rw [runUpgradePipeline, if_neg (by omega)] at hm
    have hm' : m = upgradeLoop steps (v - d.version) d := by
      cases hm
      rfl
    have hmv : m.version = v := by
      rw [hm', upgradeLoop_version]
      omega
    rw [hok m (by omega), hok d (by omega), hmv, hm', ← upgradeLoop_add]
    have hsum : v - d.version + (current - v) = current - d.version := by omega
    rw [hsum]
  · intro d' hd'
    rw [runUpgradePipeline] at hd'
    by_cases hc : current < d.version
    · rw [if_pos hc] at hd'
      exact absurd hd' (by simp)
    · rw [if_neg hc] at hd'
      have hd'' : d' = upgradeLoop steps (current - d.version) d := by
        cases hd'
        rfl
      refine hcur d' ?_
      rw [hd'', upgradeLoop_version]
      omega

/-- Concrete witness for C3 at the step table which records each applied
version in the payload, current version 8, intermediate version 3, starting
from a version-0 document. -/
theorem upgrade_pipeline_witness :
    (0 : Nat) ≤ 3 ∧ (3 : Nat) ≤ 8
    ∧ (∃ p, runUpgradePipeline (fun ver l => l ++ [ver]) 8
        (⟨0, []⟩ : VersionedDoc (List Nat)) = .ok ⟨8, p⟩) := by
  refine ⟨by decide, by decide, ?_⟩
  exact (upgrade_pipeline_spec (fun ver l => l ++ [ver]) 8 3 ⟨0, []⟩
    (by decide) (by decide)).1

/-! ## Legacy pre-versioning format: claim C9 -/

/-- C9: every document with the characteristic legacy shape (no version field,
legacy keys present) is recognized by `isOldCleopatraFormat`; the dedicated
adapter `convertOldCleopatraProfile` turns it into a document recognized by
`isProcessedProfile`, at the oldest-numbered processed version, and the
standard upgrade chain then runs on the converted document to the current
version without failing. -/
theorem old_cleopatra_spec (conv : α → β) (steps : Nat → β → β) (current : Nat)
    (d : InputDoc α) (hver : d.version = none) (hkeys : d.legacyKeys = true) :
    isOldCleopatraFormat d = true
    ∧ isProcessedProfile (convertOldCleopatraProfile conv d) = true
    ∧ (toVersionedDoc (convertOldCleopatraProfile conv d)).version
        = oldestProcessedVersion
    ∧ (∃ p, runUpgradePipeline steps current
        (toVersionedDoc (convertOldCleopatraProfile conv d)) = .ok ⟨current, p⟩) := by
  refine ⟨?_, rfl, rfl, ?_⟩
  · rw [isOldCleopatraFormat, hver, hkeys]
    rfl
  · exact (upgrade_pipeline_spec steps current current _ (Nat.zero_le _) le_rfl).1

/-- Concrete witness for C9: a legacy document with no version field and the
legacy keys, converted and upgraded to version 8. -/
theorem old_cleopatra_witness :
    (InputDoc.mk none true false ([] : List Nat)).version = none
    ∧ (InputDoc.mk none true false ([] : List Nat)).legacyKeys = true
    ∧ isOldCleopatraFormat (InputDoc.mk none true false ([] : List Nat)) = true := by
  refine ⟨rfl, rfl, ?_⟩
  exact (old_cleopatra_spec (id : List Nat → List Nat) (fun ver l => l ++ [ver]) 8
    (InputDoc.mk none true false []) rfl rfl).1

/-! ## Symbolication Merger lemmas and claim C4 -/

theorem leastSuchThat_eq_none (p : Nat → Bool) (n : Nat)
    (h : leastSuchThat p n = none) : ∀ m, m < n → p m = false := by
  induction n with
  | zero =>
    intro m hm
    omega
  | succ n ih =>
    rw [leastSuchThat] at h
    rcases hl : leastSuchThat p n with _ | k
    · rw [hl] at h
      by_cases hp : p n = true
      · rw [if_pos hp] at h
        cases h
      · intro m hm
        rcases Nat.lt_succ_iff_lt_or_eq.mp hm with h' | rfl
        · exact ih hl m h'
        · simpa using hp
    · rw [hl] at h
      cases h

theorem leastSuchThat_spec (p : Nat → Bool) (n k : Nat)
    (h : leastSuchThat p n = some k) :
    k < n ∧ p k = true ∧ ∀ m, m < k → p m = false := by
  induction n with
  | zero => simp [leastSuchThat] at h
  | succ n ih =>
    rw [leastSuchThat] at h
    rcases hl : leastSuchThat p n with _ | k'
    · rw [hl] at h
      by_cases hp : p n = true
      · rw [if_pos hp] at h
        cases h
        exact ⟨Nat.lt_succ_self k, hp, leastSuchThat_eq_none p k hl⟩
      · rw [if_neg hp] at h
        cases h
    · rw [hl] at h
      cases h
      obtain ⟨h1, h2, h3⟩ := ih hl
      exact ⟨Nat.lt_succ_of_lt h1, h2, h3⟩

theorem leastSuchThat_isSome (p : Nat → Bool) (n k : Nat) (hk : k < n)
    (hp : p k = true) : ∃ j, leastSuchThat p n = some j := by
  rcases h : leastSuchThat p n with _ | j
  · have := leastSuchThat_eq_none p n h k hk
    rw [hp] at this
    cases this
  · exact ⟨j, rfl⟩

theorem leastSuchThat_congr (p q : Nat → Bool) (n : Nat) (h : ∀ m, p m = q m) :
    leastSuchThat p n = leastSuchThat q n := by
  induction n with
  | zero => rfl
  | succ n ih => rw [leastSuchThat, leastSuchThat, ih, h n]

/-- C4: when two distinct FuncTable rows `i ≠ j` in the same resource resolve
to the identical fresh symbol name `S`, the symbolication merge
(`applyFunctionMerging` followed by `setFuncNames`) maps both to one canonical
survivor — the lowest-indexed row resolving to `S` — leaves exactly one
FuncTable row carrying the name `S` (the survivor), and rewrites the whole
FrameTable and (if built) CallNodeTable through the remap in one update, so
every reference to `i` or `j` now points at the survivor and no table is left
partially remapped. -/
theorem symbolication_merge_spec (t : SymThread) (resolve : Nat → Option String)
    (S : String) (i j : Nat) (hij : i ≠ j)
    (hi : i < t.funcNames.length) (hj : j < t.funcNames.length)
    (hri : resolve i = some S) (hrj : resolve j = some S)
    (hsame : ∀ k, resolve k = some S → t.funcResource.get? k = t.funcResource.get? i)
    (hfresh : ∀ k, t.funcNames.get? k ≠ some S) :
    oldFuncToNewFunc t resolve j = oldFuncToNewFunc t resolve i
    ∧ oldFuncToNewFunc t resolve i ≤ i ∧ oldFuncToNewFunc t resolve i ≤ j
    ∧ resolve (oldFuncToNewFunc t resolve i) = some S
    ∧ (∀ k, k < oldFuncToNewFunc t resolve i → resolve k ≠ some S)
    ∧ (∀ k, (symbolicationMerge t resolve).funcNames.get? k = some S
        ↔ k = oldFuncToNewFunc t resolve i)
    ∧ (symbolicationMerge t resolve).frameFunc
        = t.frameFunc.map (oldFuncToNewFunc t resolve)
    ∧ (symbolicationMerge t resolve).callNodeFunc
        = t.callNodeFunc.map (fun l => l.map (oldFuncToNewFunc t resolve))
    ∧ (∀ k fi, t.frameFunc.get? k = some fi → fi = i ∨ fi = j →
        (symbolicationMerge t resolve).frameFunc.get? k
          = some (oldFuncToNewFunc t resolve i)) := by
  set n := t.funcNames.length with hn
  set P : Nat → Bool := fun k =>
    (t.funcResource.get? k == t.funcResource.get? i) && (resolve k == some S)
    with hP
  have hPiff : ∀ k, P k = true ↔ resolve k = some S := by
    intro k
    constructor
    · intro h
      rw [hP] at h
      simp only [Bool.and_eq_true, beq_iff_eq] at h
      exact h.2
    · intro h
      rw [hP]
      simp only [Bool.and_eq_true, beq_iff_eq]
      exact ⟨hsame k h, h⟩
  -- the pred used by `oldFuncToNewFunc` for any row resolving to S is P
  have hpred : ∀ m, resolve m = some S →
      (fun k => (t.funcResource.get? k == t.funcResource.get? m)
        && (resolve k == some S)) = P := by
    intro m hm
    funext k
    rw [hP, hsame m hm]
  obtain ⟨g, hg⟩ := leastSuchThat_isSome P n i hi ((hPiff i).mpr hri)
  obtain ⟨hgn, hPg, hgleast⟩ := leastSuchThat_spec P n g hg
  have hSg : resolve g = some S := (hPiff g).mp hPg
  have hremap : ∀ m, resolve m = some S → oldFuncToNewFunc t resolve m = g := by
    intro m hm
    have hstep : oldFuncToNewFunc t resolve m
        = (leastSuchThat (fun k => (t.funcResource.get? k == t.funcResource.get? m)
            && (resolve k == some S)) t.funcNames.length).getD m := by
      rw [oldFuncToNewFunc, hm]
    rw [hstep, hpred m hm, ← hn, hg]
    rfl
  have hri' := hremap i hri
  have hrj' := hremap j hrj
  have hgleast' : ∀ k, k < g → resolve k ≠ some S := by
    intro k hk hSk
    have := hgleast k hk
    rw [(hPiff k).mpr hSk] at this
    cases this
  have hgle : ∀ m, m < n → resolve m = some S → g ≤ m := by
    intro m hm hSm
    by_contra hlt
    exact hgleast' m (by omega) hSm
  have hsurv : survivorNames t resolve g = some S := by
    rw [survivorNames, if_pos (hremap g hSg), hSg]
  have hgetd : ∀ k, k < n → t.funcNames.get? k = some (t.funcNames.getD k "") := by
    intro k hk
    rw [List.getD_eq_getElem?_getD, List.get?_eq_getElem?,
      List.getElem?_eq_getElem hk]
    rfl
  have hfun : (symbolicationMerge t resolve).funcNames
      = (List.range n).map (fun m =>
          (survivorNames t resolve m).getD (t.funcNames.getD m "")) := rfl
  have hnames : ∀ k, (symbolicationMerge t resolve).funcNames.get? k = some S
      ↔ k = g := by
    intro k
    rw [hfun, List.get?_eq_getElem?]
    by_cases hk : k < n
    · rw [List.getElem?_map, List.getElem?_range hk]
      simp only [Option.map_some', Option.some.injEq]
      constructor
      · intro hval
        by_contra hne
        rcases hsn : survivorNames t resolve k with _ | s
        · rw [hsn, Option.getD_none] at hval
          exact hfresh k (by rw [hgetd k hk, hval])
        · rw [hsn, Option.getD_some] at hval
          have hrs : oldFuncToNewFunc t resolve k = k ∧ resolve k = some s := by
            rw [survivorNames] at hsn
            by_cases hrem : oldFuncToNewFunc t resolve k = k
            · rw [if_pos hrem] at hsn
              exact ⟨hrem, hsn⟩
            · rw [if_neg hrem] at hsn
              cases hsn
          have hrk : resolve k = some S := by rw [hrs.2, hval]
          have := hremap k hrk
          exact hne (by omega)
      · rintro rfl
        rw [hsurv, Option.getD_some]
    · have hkn : k = g → False := by
        intro h
        omega
      rw [List.getElem?_eq_none (by simpa using Nat.le_of_not_lt hk)]
      constructor
      · intro h
        cases h
      · intro h
        exact absurd h hkn
  refine ⟨hrj'.trans hri'.symm, ?_, ?_, ?_, ?_, ?_, rfl, rfl, ?_⟩
  · rw [hri']
    exact hgle i hi hri
  · rw [hri']
    exact hgle j hj hrj
  · rw [hri']
    exact hSg
  · intro k hk
    rw [hri'] at hk
    exact hgleast' k hk
  · intro k
    rw [hri']
    exact hnames k
  · intro k fi hfk hfi
    have hframe : (symbolicationMerge t resolve).frameFunc
        = t.frameFunc.map (oldFuncToNewFunc t resolve) := rfl
    rw [hframe, List.get?_map, hfk, Option.map_some']
    rcases hfi with rfl | rfl
    · rfl
    · rw [hrj', ← hri']

/-- Concrete witness for C4: a thread with two functions at addresses
"0x10"/"0x20" in resource 0, both resolving to symbol "S"; the merge picks
func 0 as the survivor, and row 0 ends up named "S". -/
theorem symbolication_merge_witness :
    (0 : Nat) ≠ 1
    ∧ oldFuncToNewFunc (SymThread.mk ["0x10", "0x20"] [0, 0] [0, 1, 0] (some [0, 1]))
        (fun k => if k < 2 then some "S" else none) 1 = 0
    ∧ (symbolicationMerge (SymThread.mk ["0x10", "0x20"] [0, 0] [0, 1, 0] (some [0, 1]))
        (fun k => if k < 2 then some "S" else none)).funcNames.get? 0 = some "S" := by
  have hsame : ∀ k, (if k < 2 then some "S" else (none : Option String)) = some "S" →
      (SymThread.mk ["0x10", "0x20"] [0, 0] [0, 1, 0] (some [0, 1])).funcResource.get? k
        = (SymThread.mk ["0x10", "0x20"] [0, 0] [0, 1, 0]
            (some [0, 1])).funcResource.get? 0 := by
    intro k hk
    by_cases h2 : k < 2
    · interval_cases k <;> rfl
    · rw [if_neg h2] at hk
      cases hk
  have hfresh : ∀ k,
      (SymThread.mk ["0x10", "0x20"] [0, 0] [0, 1, 0] (some [0, 1])).funcNames.get? k
        ≠ some "S" := by
    intro k
    by_cases h2 : k < 2
    · interval_cases k <;> decide
    · rw [List.get?_eq_getElem?, List.getElem?_eq_none ?_]
      · simp
      · simp only [List.length_cons, List.length_nil]
        omega
  obtain ⟨h1, h2, h3, h4, h5, h6, h7, h8, h9⟩ :=
    symbolication_merge_spec
      (SymThread.mk ["0x10", "0x20"] [0, 0] [0, 1, 0] (some [0, 1]))
      (fun k => if k < 2 then some "S" else none) "S" 0 1
      (by decide) (by decide) (by decide) rfl rfl hsame hfresh
  refine ⟨by decide, by omega, ?_⟩
  exact (h6 0).mpr (by omega)

/-! ## processProfile library placement: claim C8 -/

/-- C8 counterexample: the claim (top-level library list, no per-thread
duplicate entries) fails on the code.  The unit test pins `processProfile`'s
output to carry no profile-wide libs property, and the identical library list
(starting with "firefox") appears in both thread 0 and thread 1. -/
theorem processProfile_libs_counterexample :
    processedExampleProfile.hasProfileWideLibs = false
    ∧ processedExampleProfile.threadLibDebugNames.get? 0
        = some ["firefox", "examplebinary", "examplebinary2.pdb"]
    ∧ processedExampleProfile.threadLibDebugNames.get? 1
        = some ["firefox", "examplebinary", "examplebinary2.pdb"] := by
  decide

/-- C8 (amended): feeding the historical-format capture with 3 threads
through the full pipeline yields a normalized capture in which each of the
three threads carries its own per-thread library list — there is no
capture-level libs property — and each thread's list is deduplicated (no
duplicate entries within one thread's list, though the same library may
appear in several threads' lists). -/
theorem processProfile_libs_spec :
    processedExampleProfile.threadLibDebugNames.length = 3
    ∧ processedExampleProfile.hasProfileWideLibs = false
    ∧ ∀ l ∈ processedExampleProfile.threadLibDebugNames, l.Nodup := by
  decide

/-! ## Filter string lemmas and claim C10 -/

theorem updateDescription_cachedString (b : Bool)
    (u : FilterDescription → FilterDescription) (f : Filter) :
    (updateDescription b u f).cachedString = f.cachedString := by
  rw [updateDescription]
  split
  · split <;> rfl
  · split <;> rfl

theorem applyFilterToken_cachedString (f : Filter) (t : FilterToken) :
    (applyFilterToken f t).cachedString = f.cachedString := by
  rw [applyFilterToken]
  split
  · rfl
  · rfl
  · rfl
  · split
    · split <;> rfl
    · rfl
  · split
    · rw [updateDescription_cachedString]
    · rfl
  · rw [updateDescription_cachedString]
  · rw [updateDescription_cachedString]

theorem foldl_applyFilterToken_cachedString (ts : List FilterToken) (f : Filter) :
    (ts.foldl applyFilterToken f).cachedString = f.cachedString := by
  induction ts generalizing f with
  | nil => rfl
  | cons t ts ih => rw [List.foldl_cons, ih, applyFilterToken_cachedString]

/-- C10: parsing a filter string and serializing it back is the identity.
`filterFromString` is a pure function which stores the input string as the
filter's `cachedString`; `stringFromFilter (filterFromString s)` returns `s`
exactly for every string `s` (the cached string is reused because re-parsing
it yields an equal filter); and `stringFromFilter` of the null filter and of
the empty filter both return the empty string. -/
theorem filter_string_spec (s : String) :
    (filterFromString s).cachedString = s
    ∧ stringFromFilter (some (filterFromString s)) = s
    ∧ stringFromFilter none = ""
    ∧ stringFromFilter (some getEmptyUserFilter) = "" := by
  have hc : (filterFromString s).cachedString = s := by
    rw [filterFromString, foldl_applyFilterToken_cachedString]
  refine ⟨hc, ?_, rfl, ?_⟩
  · rw [stringFromFilter, hc, if_pos rfl]
  · rfl

end Engine
